import Mathlib

/-!
Shallow embedding of the LOST-STATS utility code:
  * `lostutils/style.py`  — `format_str`, `format_file` (fence scanner and
    per-language formatter dispatch) and the `style` CLI command's per-file
    write loop.
  * `tests/test_samples.py` — `CodeBlock` and `get_top_level_block_codes`
    (extraction of fenced code blocks from a markdown AST and reassembly of
    named `example=` groups).

Lines and strings are modelled as `List Char` where proofs need structure,
with `String` wrappers (`String.mk`/`String.data`) at the interface of the
top-level definitions.  Python's `str.rstrip`/`str.strip`/`str.lower`,
`str.partition`, `urllib.parse.parse_qs` and file line iteration are
modelled faithfully at the ASCII level (non-ASCII case folding and UTF-8
decoding of percent-escaped byte sequences are out of scope of the claims;
percent-escapes are decoded one byte per character).
-/

namespace Lost

/-- The whitespace characters stripped by Python's `str.strip`/`str.rstrip`
(with no argument): space, tab, newline, carriage return, vertical tab,
form feed. -/
def isPySpace (c : Char) : Bool :=
  c.toNat = 32 || c.toNat = 9 || c.toNat = 10 || c.toNat = 13 ||
    c.toNat = 11 || c.toNat = 12

/-- Python `str.rstrip()` on a list of characters. -/
def rstripCh (l : List Char) : List Char :=
  (l.reverse.dropWhile isPySpace).reverse

/-- Python `str.lstrip()` on a list of characters. -/
def lstripCh (l : List Char) : List Char :=
  l.dropWhile isPySpace

/-- Python `str.strip()` on a list of characters. -/
def stripCh (l : List Char) : List Char :=
  rstripCh (lstripCh l)

/-- Is `c` an ASCII uppercase letter? -/
def isUpperCh (c : Char) : Bool :=
  65 ≤ c.toNat && c.toNat ≤ 90

/-- Python `str.lower()` on one ASCII character: the uppercase letters map
to their lowercase counterparts 32 code points higher, everything else is
fixed. -/
def pyToLower (c : Char) : Char :=
  if isUpperCh c then Char.ofNat (c.toNat + 32) else c

/-- Python `str.lower()` (ASCII case folding). -/
def toLowerCh (l : List Char) : List Char :=
  l.map pyToLower

/-- `"\n".join(lines)` on lists of characters. -/
def joinLines : List (List Char) → List Char
  | [] => []
  | [l] => l
  | l :: ls => l ++ '\n' :: joinLines ls

/-- Split a list of characters on every occurrence of `sep`
(Python `str.split(sep)`; always returns at least one piece). -/
def splitOnChar (sep : Char) : List Char → List (List Char)
  | [] => [[]]
  | c :: rest =>
    match splitOnChar sep rest with
    | [] => if c = sep then [[], []] else [[c]]
    | h :: t => if c = sep then [] :: h :: t else (c :: h) :: t

/-- Split at the first occurrence of `sep`, if any
(Python `str.partition(sep)` / `str.split(sep, 1)`). -/
def splitFirst (sep : Char) : List Char → Option (List Char × List Char)
  | [] => none
  | c :: rest =>
    if c = sep then some ([], rest)
    else (splitFirst sep rest).map (fun p => (c :: p.1, p.2))

/-- The three-backtick fence marker. -/
def fenceMarker : List Char := ['`', '`', '`']

/-- Python `line.startswith("```")`. -/
def startsFence (l : List Char) : Bool :=
  l.take 3 = fenceMarker

/-! ### style.py: format_str -/

/-- The external collaborators of `format_str`: `black.format_str` (in-process
Python formatter, raises `black.InvalidInput` on syntactically invalid source,
modelled as `Except` with a string message) and the dockerized R `styler`
invocation (reads source from stdin, produces the formatted text on stdout;
`subprocess.run` without `check=True` never raises, so it is a total
function). -/
structure Formatters where
  pyFormat : List Char → Except String (List Char)
  rFormat : List Char → List Char

/-- `"\n".join(["```" + params, body, "```"])`. -/
def fenceWrap (params body : List Char) : List Char :=
  fenceMarker ++ params ++ '\n' :: body ++ '\n' :: fenceMarker

/-- `style.format_str`, at the character-list level.  The header is stripped
and lowercased first; prefix `py` routes to the in-process formatter (whose
output is rstripped before wrapping), prefix `r` routes to the external R
toolchain (stdout rstripped before wrapping), anything else is a passthrough
that wraps the source unchanged.  All three branches prepend the STRIPPED
LOWERCASED parameters to the opening fence marker. -/
def format_strCh (F : Formatters) (srcString parameters : List Char) :
    Except String (List Char) :=
  let parameters := toLowerCh (stripCh parameters)
  if parameters.take 2 = ['p', 'y'] then
    (F.pyFormat srcString).map (fun f => fenceWrap parameters (rstripCh f))
  else if parameters.take 1 = ['r'] then
    .ok (fenceWrap parameters (rstripCh (F.rFormat srcString)))
  else
    .ok (fenceWrap parameters srcString)

/-- `style.format_str` at the `String` level. -/
def format_str (F : Formatters) (srcString parameters : String) :
    Except String String :=
  (format_strCh F srcString.data parameters.data).map String.mk

/-! ### style.py: format_file -/

/-- The transient per-file fence state of `format_file`'s scanner loop:
`is_in_fence`, `fence_parameters` (Python `None` modelled as `none`) and the
accumulated `fenced_lines`. -/
structure ScanState where
  isInFence : Bool
  fenceParameters : Option (List Char)
  fencedLines : List (List Char)
deriving Repr, DecidableEq

/-- The initial scanner state: `is_in_fence = False`,
`fence_parameters = None`, `fenced_lines = []`. -/
def ScanState.init : ScanState := ⟨false, none, []⟩

/-- The line loop of `style.format_file`: each line is rstripped; a line
starting with three backticks closes the fence when inside one (emitting
`format_str` of the joined fenced lines and resetting the state) and opens
one otherwise (capturing `line.strip()[3:]` as the parameters); other lines
are accumulated when inside a fence and emitted rstripped otherwise.
Returns the emitted `final_lines` together with the loop's final state
(discarded by the caller); a formatter error propagates out unchanged. -/
def scanEmit (F : Formatters) :
    List (List Char) → ScanState → Except String (List (List Char) × ScanState)
  | [], st => .ok ([], st)
  | line :: rest, st =>
    let line := rstripCh line
    if startsFence line then
      if st.isInFence then
        match format_strCh F (joinLines st.fencedLines)
            (st.fenceParameters.getD []) with
        | .error e => .error e
        | .ok blk =>
          (scanEmit F rest ⟨false, none, []⟩).map
            (fun p => (blk :: p.1, p.2))
      else
        scanEmit F rest ⟨true, some ((stripCh line).drop 3), st.fencedLines⟩
    else if st.isInFence then
      scanEmit F rest { st with fencedLines := st.fencedLines ++ [line] }
    else
      (scanEmit F rest st).map (fun p => (rstripCh line :: p.1, p.2))

/-- Python text-mode file line iteration, after universal-newline
translation: the chunks between newlines, without the final empty chunk
produced by a trailing newline (Python yields lines with their terminators,
but `format_file` immediately rstrips each line, so the terminators are
dropped here). -/
def fileLines (content : String) : List (List Char) :=
  let parts := splitOnChar '\n' content.data
  if parts.getLast? = some [] then parts.dropLast else parts

/-- `style.format_file`: scan the file's lines, join the emitted lines with
newlines, strip trailing whitespace from the joined result and append
exactly one newline. -/
def format_file (F : Formatters) (content : String) : Except String String :=
  (scanEmit F (fileLines content) ScanState.init).map
    (fun p => String.mk (rstripCh (joinLines p.1) ++ ['\n']))

/-! ### cli.py: style_command -/

/-- The per-file loop of `cli.style_command`, over an in-memory batch of
`(filename, content)` pairs.  Each file is formatted and then written with
`print(fixed_md, file=outfile)` — which appends one extra newline to the
returned text.  An exception from `format_file` propagates out of the loop:
files before it have already been written, the failing file and every file
after it are not.  Returns the list of performed writes and the escaped
error, if any. -/
def style_command (F : Formatters) :
    List (String × String) → List (String × String) × Option String
  | [] => ([], none)
  | (name, content) :: rest =>
    match format_file F content with
    | .error e => ([], some e)
    | .ok fixed =>
      let p := style_command F rest
      ((name, fixed ++ "\n") :: p.1, p.2)

/-! ### test_samples.py: CodeBlock and get_top_level_block_codes -/

/-- A code block found amongst the markdown (`test_samples.CodeBlock`):
language, code, option map (a dict of lists, modelled as an
insertion-ordered association list) and source location. -/
structure CodeBlock where
  language : String
  code : String
  options : List (String × List String)
  location : String
deriving Repr, DecidableEq, Inhabited

/-- One element of the mistune AST as consumed by
`get_top_level_block_codes`: a `block_code` node carries the fence header
(`info`, `None` when absent — mistune 2.0.0a5 sets it to `None` rather than
omitting it) and the block's text; every other node kind is ignored. -/
inductive AstElt where
  | blockCode (info : Option String) (text : String)
  | other
deriving Repr, DecidableEq

/-- A hexadecimal digit's value, as accepted by `urllib.parse.unquote`. -/
def hexVal? (c : Char) : Option Nat :=
  if '0' ≤ c ∧ c ≤ '9' then some (c.toNat - '0'.toNat)
  else if 'a' ≤ c ∧ c ≤ 'f' then some (c.toNat - 'a'.toNat + 10)
  else if 'A' ≤ c ∧ c ≤ 'F' then some (c.toNat - 'A'.toNat + 10)
  else none

/-- `urllib.parse.unquote_plus`: `+` becomes a space, `%XX` with two hex
digits becomes the character with that code (each escaped byte modelled as
one character), anything else is literal. -/
def unquotePlus : List Char → List Char
  | [] => []
  | '%' :: h₁ :: h₂ :: rest =>
    match hexVal? h₁, hexVal? h₂ with
    | some a, some b => Char.ofNat (16 * a + b) :: unquotePlus rest
    | _, _ => '%' :: unquotePlus (h₁ :: h₂ :: rest)
  | c :: rest => (if c = '+' then ' ' else c) :: unquotePlus rest

/-- `urllib.parse.parse_qsl` with default arguments: split the query string
on `&`; skip empty fields; skip fields with no `=` and fields whose value is
empty (`keep_blank_values=False`); unquote names and values. -/
def parseQsl (qs : List Char) : List (List Char × List Char) :=
  (splitOnChar '&' qs).filterMap fun nv =>
    if nv = [] then none
    else
      match splitFirst '=' nv with
      | none => none
      | some (n, v) =>
        if v = [] then none else some (unquotePlus n, unquotePlus v)

/-- Append a value to a key's list in an insertion-ordered dict of lists,
creating the entry at the end when the key is new (the behavior of both
`parse_qs`'s result dict and `defaultdict(list)` under `d[k].append(v)`). -/
def dictAppend {α : Type} (d : List (List Char × List α)) (k : List Char)
    (v : α) : List (List Char × List α) :=
  match d with
  | [] => [(k, [v])]
  | (k', vs) :: rest =>
    if k' = k then (k', vs ++ [v]) :: rest
    else (k', vs) :: dictAppend rest k v

/-- Look up a key's list in such a dict. -/
def dictFind? {α : Type} (d : List (List Char × List α)) (k : List Char) :
    Option (List α) :=
  match d with
  | [] => none
  | (k', vs) :: rest => if k' = k then some vs else dictFind? rest k

/-- `urllib.parse.parse_qs`: group the `parse_qsl` pairs into a dict of
lists, preserving first-occurrence key order and per-key value order. -/
def parse_qs (qs : List Char) : List (List Char × List (List Char)) :=
  (parseQsl qs).foldl (fun d p => dictAppend d p.1 p.2) []

/-- The per-`block_code` work of the loop in `get_top_level_block_codes`:
lowercase the whole `info` header, partition on the first `?`, parse the
option suffix as a query string when non-empty, read the group name as
`doptions.get("example", [""])[0]`, and build the `CodeBlock`.  Returns the
`(name, block)` pair the loop dispatches on. -/
def mkBlock (location : String) (info : String) (text : String) :
    String × CodeBlock :=
  let language := toLowerCh info.data
  match splitFirst '?' language with
  | none => ("", ⟨String.mk language, text, [], location⟩)
  | some (lang, opts) =>
    if opts = [] then ("", ⟨String.mk lang, text, [], location⟩)
    else
      let d := parse_qs opts
      let name :=
        ((dictFind? d ['e', 'x', 'a', 'm', 'p', 'l', 'e']).getD [[]]).headD []
      (String.mk name,
        ⟨String.mk lang, text,
          d.map (fun p => (String.mk p.1, p.2.map String.mk)), location⟩)

/-- The loop body of `get_top_level_block_codes` applied to one AST element:
`none` for non-`block_code` nodes, otherwise the `(name, block)` pair
(`elt.get("info") or ""` maps both a missing and a `None` info to `""`). -/
def processElt (location : String) : AstElt → Option (String × CodeBlock)
  | .other => none
  | .blockCode info text => some (mkBlock location (info.getD "") text)

/-- The AST loop of `get_top_level_block_codes`: named blocks accumulate in
a `defaultdict(list)` keyed by group name, unnamed blocks append to a
list, both in encounter order. -/
def scanAst (location : String) :
    List AstElt → List (List Char × List CodeBlock) → List CodeBlock →
      List (List Char × List CodeBlock) × List CodeBlock
  | [], named, unnamed => (named, unnamed)
  | elt :: rest, named, unnamed =>
    match processElt location elt with
    | none => scanAst location rest named unnamed
    | some (name, block) =>
      if name = "" then scanAst location rest named (unnamed ++ [block])
      else scanAst location rest (dictAppend named name.data block) unnamed

/-- The merged block synthesized for one named group: member codes joined
with a blank line (two newlines), language and options from the first
member, location from the enclosing call.  (`block_of_blocks[0]` would raise
on an empty group in Python; groups are non-empty by construction, and the
`headD default` is never reached.) -/
def mergeGroup (location : String) (blocks : List CodeBlock) : CodeBlock :=
  { code := String.intercalate "\n\n" (blocks.map CodeBlock.code)
    language := (blocks.headD default).language
    options := (blocks.headD default).options
    location := location }

/-- `test_samples.get_top_level_block_codes` over the parsed AST: the
unnamed blocks in encounter order, followed by one merged block per named
group in the dict's (first-occurrence) order. -/
def getTopLevelBlockCodes (ast : List AstElt) (location : String) :
    List CodeBlock :=
  let p := scanAst location ast [] []
  p.2 ++ p.1.map (fun e => mergeGroup location e.2)

/-! ### Specification-side definitions used to state the claims -/

/-- A trivial in-process formatter/toolchain pair (the identity), used to
instantiate the external collaborators at concrete inputs. -/
def F0 : Formatters := ⟨fun s => .ok s, fun s => s⟩

/-- A formatter pair whose in-process formatter rejects every input (as
`black.format_str` does on syntactically invalid source). -/
def Ffail : Formatters := ⟨fun _ => .error "invalid-input", fun s => s⟩

/-- A formatter pair that rewrites every block to a fixed canonical text —
an idempotent formatter with canonical output, used to instantiate the
idempotence theorem. -/
def Fconst : Formatters :=
  ⟨fun _ => .ok "x = 1".data, fun _ => "y <- 1".data⟩

instance {ε α : Type} [DecidableEq ε] [DecidableEq α] :
    DecidableEq (Except ε α) := fun x y =>
  match x, y with
  | .error a, .error b =>
    if h : a = b then isTrue (congrArg Except.error h)
    else isFalse (fun hh => h (by cases hh; rfl))
  | .ok a, .ok b =>
    if h : a = b then isTrue (congrArg Except.ok h)
    else isFalse (fun hh => h (by cases hh; rfl))
  | .error _, .ok _ => isFalse (fun hh => Except.noConfusion hh)
  | .ok _, .error _ => isFalse (fun hh => Except.noConfusion hh)

/-- Does `s` end with exactly one trailing newline? -/
def endsOneNewline (s : String) : Bool :=
  (s.data.getLast? = some '\n') && !(s.data.dropLast.getLast? = some '\n')

/-- A file's content after only trailing-whitespace normalization: every
line stripped of trailing whitespace, trailing whitespace stripped from the
joined result, exactly one trailing newline appended. -/
def normalizeFile (content : String) : String :=
  String.mk (rstripCh (joinLines ((fileLines content).map rstripCh)) ++ ['\n'])

/-- A file's lines consist only of plain lines and complete fences that are
already in the form the passthrough branch re-emits: the opening fence's
header is strip/lower-invariant and routed neither to the Python formatter
nor to the R toolchain, the body is non-empty and contains no fence
markers, and the closing line is a bare triple backtick. -/
inductive PassthroughLines : List (List Char) → Prop where
  | nil : PassthroughLines []
  | plain (l : List Char) (rest : List (List Char))
      (h : startsFence (rstripCh l) = false)
      (hr : PassthroughLines rest) : PassthroughLines (l :: rest)
  | fence (o : List Char) (body : List (List Char)) (c : List Char)
      (rest : List (List Char))
      (ho : startsFence (rstripCh o) = true)
      (hq : toLowerCh (stripCh ((rstripCh o).drop 3)) = (rstripCh o).drop 3)
      (hnpy : ((rstripCh o).drop 3).take 2 ≠ ['p', 'y'])
      (hnr : ((rstripCh o).drop 3).take 1 ≠ ['r'])
      (hbody : body ≠ [])
      (hbl : ∀ b ∈ body, startsFence (rstripCh b) = false)
      (hc : rstripCh c = fenceMarker)
      (hr : PassthroughLines rest) :
      PassthroughLines (o :: (body ++ c :: rest))

/-- Every line of a fenced-block body is free of trailing whitespace and of
fence markers (so a re-scan reproduces it verbatim). -/
def CanonicalBody (b : List Char) : Prop :=
  ∀ l ∈ splitOnChar '\n' b, rstripCh l = l ∧ startsFence l = false

/-- The in-process formatter produces canonical, idempotent output: whenever
it succeeds, the rstripped result has a canonical body and is a fixed point
of the formatter. -/
def PyIdempotent (F : Formatters) : Prop :=
  ∀ s t, F.pyFormat s = .ok t →
    CanonicalBody (rstripCh t) ∧ F.pyFormat (rstripCh t) = .ok (rstripCh t)

/-- The external R toolchain produces canonical, idempotent output: the
rstripped stdout has a canonical body and reformatting it reproduces it. -/
def RIdempotent (F : Formatters) : Prop :=
  ∀ s, CanonicalBody (rstripCh (F.rFormat s)) ∧
    rstripCh (F.rFormat (rstripCh (F.rFormat s))) = rstripCh (F.rFormat s)

/-- A unit emitted by the fence scanner, as needed for the idempotence
argument: either a plain line (newline-free, rstripped, not a fence) or a
complete rendered fence whose header is strip/lower-invariant and
newline-free, whose body is canonical, and which `format_str` maps to
itself. -/
def GoodUnit (F : Formatters) (u : List Char) : Prop :=
  (rstripCh u = u ∧ startsFence u = false ∧ '\n' ∉ u) ∨
  (∃ q body, u = fenceWrap q body ∧ toLowerCh (stripCh q) = q ∧
    '\n' ∉ q ∧ CanonicalBody body ∧ format_strCh F body q = .ok u)

/-- Drop the trailing empty units (the source of trailing whitespace in the
joined output). -/
def dropTrailingEmpties (units : List (List Char)) : List (List Char) :=
  (units.reverse.dropWhile (· = [])).reverse

/-- The `(name, block)` pairs of the named (grouped) blocks of an AST, in
encounter order. -/
def namedPairs (location : String) (ast : List AstElt) :
    List (List Char × CodeBlock) :=
  ast.filterMap fun e =>
    (processElt location e).bind fun p =>
      if p.1 = "" then none else some (p.1.data, p.2)

/-- The unnamed blocks of an AST, in encounter order. -/
def unnamedOf (location : String) (ast : List AstElt) : List CodeBlock :=
  ast.filterMap fun e =>
    (processElt location e).bind fun p =>
      if p.1 = "" then some p.2 else none

/-- The member blocks of the named group `g`, in encounter order. -/
def membersOf (location : String) (ast : List AstElt) (g : List Char) :
    List CodeBlock :=
  (namedPairs location ast).filterMap fun p =>
    if p.1 = g then some p.2 else none

/-- First-occurrence deduplication, skipping the names in `seen`. -/
def firstOccAux (seen : List (List Char)) :
    List (List Char) → List (List Char)
  | [] => []
  | x :: xs =>
    if x ∈ seen then firstOccAux seen xs
    else x :: firstOccAux (x :: seen) xs

/-- The distinct group names of an AST, in first-occurrence order. -/
def groupNames (location : String) (ast : List AstElt) : List (List Char) :=
  firstOccAux [] ((namedPairs location ast).map Prod.fst)

/-- The group name extracted from a (lowercased) fence header. -/
def headerName (language : List Char) : List Char :=
  match splitFirst '?' language with
  | none => []
  | some (_, opts) =>
    if opts = [] then []
    else ((dictFind? (parse_qs opts) ['e', 'x', 'a', 'm', 'p', 'l', 'e']).getD
      [[]]).headD []

/-- The options dict extracted from a (lowercased) fence header. -/
def headerOptions (language : List Char) : List (String × List String) :=
  match splitFirst '?' language with
  | none => []
  | some (_, opts) =>
    if opts = [] then []
    else (parse_qs opts).map fun p => (String.mk p.1, p.2.map String.mk)

/-- The language extracted from a (lowercased) fence header. -/
def headerLanguage (language : List Char) : List Char :=
  match splitFirst '?' language with
  | none => language
  | some (lang, _) => lang

/-- No character of `l` is an ASCII uppercase letter. -/
def NoUpper (l : List Char) : Prop :=
  ∀ c ∈ l, isUpperCh c = false

/-- Every option key and value of `opts` is free of ASCII uppercase
letters. -/
def OptionsNoUpper (opts : List (String × List String)) : Prop :=
  ∀ kv ∈ opts, NoUpper kv.1.data ∧ ∀ v ∈ kv.2, NoUpper v.data

/-- Fold a list of `(key, value)` pairs into a dict of lists starting from
`d`, appending each value under its key in encounter order. -/
def buildDictFrom {α : Type} (d : List (List Char × List α))
    (ps : List (List Char × α)) : List (List Char × List α) :=
  ps.foldl (fun d p => dictAppend d p.1 p.2) d

/-- Total lookup in a dict of lists (empty list when the key is absent). -/
def dictFindD {α : Type} (d : List (List Char × List α)) (g : List Char) :
    List α :=
  (dictFind? d g).getD []

/-! ### Character-level lemmas -/

theorem toNat_ofNat_valid (n : Nat) (h : n < 55296) : (Char.ofNat n).toNat = n := by
  have hv : n.isValidChar := Or.inl h
  simp [Char.ofNat, Char.toNat, Char.ofNatAux, hv, UInt32.toNat, BitVec.toNat_ofNatLt]

theorem char_eq_iff_toNat {a b : Char} : a = b ↔ a.toNat = b.toNat := by
  constructor
  · rintro rfl; rfl
  · intro h
    rw [Char.ext_iff]
    apply UInt32.ext
    simpa [Char.toNat] using h

theorem isUpperCh_toNat {c : Char} (h : isUpperCh c = true) :
    65 ≤ c.toNat ∧ c.toNat ≤ 90 := by
  simpa [isUpperCh] using h

theorem pyToLower_of_not_upper {c : Char} (h : isUpperCh c = false) :
    pyToLower c = c := by
  simp [pyToLower, h]

theorem toNat_pyToLower_of_upper {c : Char} (h : isUpperCh c = true) :
    (pyToLower c).toNat = c.toNat + 32 := by
  obtain ⟨h₁, h₂⟩ := isUpperCh_toNat h
  simp only [pyToLower, h, if_true]
  exact toNat_ofNat_valid _ (by omega)

theorem isUpperCh_pyToLower (c : Char) : isUpperCh (pyToLower c) = false := by
  by_cases h : isUpperCh c = true
  · obtain ⟨h₁, h₂⟩ := isUpperCh_toNat h
    have hgt : ¬ (pyToLower c).toNat ≤ 90 := by
      rw [toNat_pyToLower_of_upper h]; omega
    simp [isUpperCh, hgt]
  · rw [pyToLower_of_not_upper (by simpa using h)]
    simpa using h

theorem isPySpace_pyToLower (c : Char) : isPySpace (pyToLower c) = isPySpace c := by
  by_cases h : isUpperCh c = true
  · obtain ⟨h₁, h₂⟩ := isUpperCh_toNat h
    have hl : isPySpace (pyToLower c) = false := by
      simp only [isPySpace, toNat_pyToLower_of_upper h, Bool.or_eq_false_iff,
        decide_eq_false_iff_not]
      omega
    have hr : isPySpace c = false := by
      simp only [isPySpace, Bool.or_eq_false_iff, decide_eq_false_iff_not]
      omega
    rw [hl, hr]
  · rw [pyToLower_of_not_upper (by simpa using h)]

theorem pyToLower_pyToLower (c : Char) : pyToLower (pyToLower c) = pyToLower c :=
  pyToLower_of_not_upper (isUpperCh_pyToLower c)

theorem pyToLower_eq_low {c d : Char} (hd : d.toNat < 97)
    (h : pyToLower c = d) : c = d := by
  by_cases hu : isUpperCh c = true
  · obtain ⟨h₁, h₂⟩ := isUpperCh_toNat hu
    have := toNat_pyToLower_of_upper hu
    rw [h] at this
    omega
  · rwa [pyToLower_of_not_upper (by simpa using hu)] at h

theorem toLowerCh_toLowerCh (l : List Char) :
    toLowerCh (toLowerCh l) = toLowerCh l := by
  unfold toLowerCh
  rw [List.map_map]
  exact List.map_congr_left fun c _ => pyToLower_pyToLower c

theorem not_mem_toLowerCh {l : List Char} {d : Char} (hd : d.toNat < 97)
    (h : d ∉ l) : d ∉ toLowerCh l := by
  intro hmem
  obtain ⟨c, hc, hcd⟩ := List.mem_map.mp hmem
  exact h (pyToLower_eq_low hd hcd ▸ hc)

/-! ### rstrip / lstrip / strip lemmas -/

theorem dropWhile_head_false {α : Type} (p : α → Bool) (l : List α) (c : α)
    (rest : List α) (h : l.dropWhile p = c :: rest) : p c = false := by
  induction l with
  | nil => simp [List.dropWhile] at h
  | cons x xs ih =>
    rw [List.dropWhile_cons] at h
    split at h
    · exact ih h
    · cases h
      rename_i hx
      simpa using hx

theorem rstripCh_idem (l : List Char) : rstripCh (rstripCh l) = rstripCh l := by
  unfold rstripCh
  rw [List.reverse_reverse, List.dropWhile_idempotent]

theorem rstripCh_getLast_not_space (l : List Char) (c : Char)
    (h : (rstripCh l).getLast? = some c) : isPySpace c = false := by
  unfold rstripCh at h
  rw [List.getLast?_reverse] at h
  cases hd : l.reverse.dropWhile isPySpace with
  | nil => rw [hd] at h; simp at h
  | cons a t =>
    rw [hd] at h
    simp only [List.head?_cons, Option.some.injEq] at h
    subst h
    exact dropWhile_head_false _ _ _ _ hd

theorem rstripCh_eq_self (l : List Char)
    (h : ∀ c, l.getLast? = some c → isPySpace c = false) : rstripCh l = l := by
  unfold rstripCh
  cases hr : l.reverse with
  | nil =>
    have : l = [] := by simpa using congrArg List.reverse hr
    simp [this]
  | cons a t =>
    have ha : l.getLast? = some a := by
      rw [← List.head?_reverse, hr]; rfl
    rw [List.dropWhile_cons, h a ha]
    simp only [Bool.false_eq_true, if_false]
    rw [← hr, List.reverse_reverse]

theorem rstripCh_append_space (l : List Char) {c : Char}
    (hc : isPySpace c = true) : rstripCh (l ++ [c]) = rstripCh l := by
  unfold rstripCh
  rw [List.reverse_append]
  simp [List.dropWhile_cons, hc]

theorem rstripCh_pref (l : List Char) : rstripCh l <+: l := by
  have h : l.reverse.dropWhile isPySpace <:+ l.reverse := List.dropWhile_suffix _
  have h3 := List.reverse_prefix.mpr h
  rw [List.reverse_reverse] at h3
  exact h3

theorem lstripCh_rstripCh_lstripCh (l : List Char) :
    lstripCh (rstripCh (lstripCh l)) = rstripCh (lstripCh l) := by
  cases hy : lstripCh l with
  | nil => simp [rstripCh, lstripCh]
  | cons c ys =>
    have hc : isPySpace c = false := dropWhile_head_false _ l c ys hy
    cases hr : rstripCh (c :: ys) with
    | nil => simp [lstripCh]
    | cons d ds =>
      have hpre := rstripCh_pref (c :: ys)
      rw [hr] at hpre
      obtain ⟨t, ht⟩ := hpre
      have hd : d = c := by
        have := ht
        simp only [List.cons_append] at this
        exact (List.cons.injEq _ _ _ _ |>.mp this).1
      subst hd
      unfold lstripCh
      simp [List.dropWhile_cons, hc]

theorem stripCh_idem (l : List Char) : stripCh (stripCh l) = stripCh l := by
  unfold stripCh
  rw [lstripCh_rstripCh_lstripCh, rstripCh_idem]

theorem rstripCh_toLowerCh (l : List Char) :
    rstripCh (toLowerCh l) = toLowerCh (rstripCh l) := by
  unfold rstripCh toLowerCh
  rw [← List.map_reverse, List.dropWhile_map,
    show (isPySpace ∘ pyToLower) = isPySpace from funext isPySpace_pyToLower,
    List.map_reverse]

theorem lstripCh_toLowerCh (l : List Char) :
    lstripCh (toLowerCh l) = toLowerCh (lstripCh l) := by
  unfold lstripCh toLowerCh
  rw [List.dropWhile_map,
    show (isPySpace ∘ pyToLower) = isPySpace from funext isPySpace_pyToLower]

theorem stripCh_toLowerCh (l : List Char) :
    stripCh (toLowerCh l) = toLowerCh (stripCh l) := by
  unfold stripCh
  rw [lstripCh_toLowerCh, rstripCh_toLowerCh]

theorem stripCh_params (p : List Char) :
    stripCh (toLowerCh (stripCh p)) = toLowerCh (stripCh p) := by
  rw [stripCh_toLowerCh, stripCh_idem]

theorem toLowerCh_params (p : List Char) :
    toLowerCh (toLowerCh (stripCh p)) = toLowerCh (stripCh p) :=
  toLowerCh_toLowerCh _

theorem rstripCh_of_strip_fixed {q : List Char} (h : stripCh q = q) :
    rstripCh q = q := by
  conv_lhs => rw [← h]
  unfold stripCh
  rw [rstripCh_idem]
  exact h

theorem lstripCh_of_strip_fixed {q : List Char} (h : stripCh q = q) :
    lstripCh q = q := by
  conv_lhs => rw [← h]
  unfold stripCh
  rw [lstripCh_rstripCh_lstripCh]
  exact h

/-! ### splitOnChar / joinLines lemmas -/

theorem splitOnChar_cons_elim {sep c : Char} {rest : List Char}
    {h : List Char} {t : List (List Char)}
    (hr : splitOnChar sep rest = h :: t) :
    splitOnChar sep (c :: rest) =
      if c = sep then [] :: h :: t else (c :: h) :: t := by
  unfold splitOnChar
  rw [hr]

theorem splitOnChar_ne_nil (sep : Char) (l : List Char) :
    splitOnChar sep l ≠ [] := by
  induction l with
  | nil => simp [splitOnChar]
  | cons c rest ih =>
    cases hr : splitOnChar sep rest with
    | nil => exact absurd hr ih
    | cons h t =>
      rw [splitOnChar_cons_elim hr]
      split <;> simp

theorem mem_splitOnChar_not_sep (sep : Char) :
    ∀ (l : List Char), ∀ p ∈ splitOnChar sep l, sep ∉ p := by
  intro l
  induction l with
  | nil =>
    intro p hp
    simp [splitOnChar] at hp
    simp [hp]
  | cons c rest ih =>
    intro p hp
    cases hr : splitOnChar sep rest with
    | nil => exact absurd hr (splitOnChar_ne_nil sep rest)
    | cons h t =>
      rw [splitOnChar_cons_elim hr] at hp
      by_cases hc : c = sep
      · rw [if_pos hc] at hp
        rcases List.mem_cons.mp hp with h1 | h1
        · simp [h1]
        · exact ih p (hr ▸ h1)
      · rw [if_neg hc] at hp
        rcases List.mem_cons.mp hp with h1 | h1
        · subst h1
          intro hmem
          rcases List.mem_cons.mp hmem with h2 | h2
          · exact hc h2.symm
          · exact ih h (hr ▸ List.mem_cons_self h t) h2
        · exact ih p (hr ▸ List.mem_cons.mpr (Or.inr h1))

theorem mem_splitOnChar_subset (sep : Char) :
    ∀ (l : List Char), ∀ p ∈ splitOnChar sep l, ∀ c ∈ p, c ∈ l := by
  intro l
  induction l with
  | nil =>
    intro p hp
    simp [splitOnChar] at hp
    simp [hp]
  | cons x rest ih =>
    intro p hp c hc
    cases hr : splitOnChar sep rest with
    | nil => exact absurd hr (splitOnChar_ne_nil sep rest)
    | cons h t =>
      rw [splitOnChar_cons_elim hr] at hp
      by_cases hx : x = sep
      · rw [if_pos hx] at hp
        rcases List.mem_cons.mp hp with h1 | h1
        · subst h1; simp at hc
        · exact List.mem_cons.mpr (Or.inr (ih p (hr ▸ h1) c hc))
      · rw [if_neg hx] at hp
        rcases List.mem_cons.mp hp with h1 | h1
        · subst h1
          rcases List.mem_cons.mp hc with h2 | h2
          · exact List.mem_cons.mpr (Or.inl h2)
          · exact List.mem_cons.mpr
              (Or.inr (ih h (hr ▸ List.mem_cons_self h t) c h2))
        · exact List.mem_cons.mpr
            (Or.inr (ih p (hr ▸ List.mem_cons.mpr (Or.inr h1)) c hc))

theorem splitOnChar_of_not_mem {sep : Char} {l : List Char} (h : sep ∉ l) :
    splitOnChar sep l = [l] := by
  induction l with
  | nil => rfl
  | cons c rest ih =>
    have hc : ¬ c = sep := fun hc => h (hc ▸ List.mem_cons_self c rest)
    have hrest : sep ∉ rest := fun hm => h (List.mem_cons.mpr (Or.inr hm))
    rw [splitOnChar_cons_elim (ih hrest), if_neg hc]

theorem joinLines_cons_cons (x y : List Char) (t : List (List Char)) :
    joinLines (x :: y :: t) = x ++ '\n' :: joinLines (y :: t) := rfl

theorem joinLines_splitOnChar (l : List Char) :
    joinLines (splitOnChar '\n' l) = l := by
  induction l with
  | nil => rfl
  | cons c rest ih =>
    cases hr : splitOnChar '\n' rest with
    | nil => exact absurd hr (splitOnChar_ne_nil '\n' rest)
    | cons h t =>
      rw [hr] at ih
      rw [splitOnChar_cons_elim hr]
      by_cases hc : c = '\n'
      · subst hc
        rw [if_pos rfl, joinLines_cons_cons]
        simpa using ih
      · rw [if_neg hc]
        cases t with
        | nil => simpa [joinLines] using congrArg (List.cons c) ih
        | cons y t' =>
          rw [joinLines_cons_cons] at *
          simpa using congrArg (List.cons c) ih

theorem splitOnChar_append_cons (sep : Char) (a b : List Char) :
    splitOnChar sep (a ++ sep :: b) =
      splitOnChar sep a ++ splitOnChar sep b := by
  induction a with
  | nil =>
    simp only [List.nil_append]
    cases hb : splitOnChar sep b with
    | nil => exact absurd hb (splitOnChar_ne_nil sep b)
    | cons h t =>
      rw [splitOnChar_cons_elim hb, if_pos rfl]
      rfl
  | cons c a' ih =>
    simp only [List.cons_append]
    cases ha : splitOnChar sep a' with
    | nil => exact absurd ha (splitOnChar_ne_nil sep a')
    | cons h t =>
      have hcomb : splitOnChar sep (a' ++ sep :: b) =
          (h :: t) ++ splitOnChar sep b := by rw [ih, ha]
      cases hsb : splitOnChar sep b with
      | nil => exact absurd hsb (splitOnChar_ne_nil sep b)
      | cons hb tb =>
        rw [hsb] at hcomb
        rw [splitOnChar_cons_elim (c := c) hcomb,
          splitOnChar_cons_elim (c := c) ha]
        by_cases hc : c = sep
        · rw [if_pos hc, if_pos hc]
          rfl
        · rw [if_neg hc, if_neg hc]
          rfl

theorem splitOnChar_concat_sep (sep : Char) (l : List Char) :
    splitOnChar sep (l ++ [sep]) = splitOnChar sep l ++ [[]] := by
  have h := splitOnChar_append_cons sep l []
  simpa [splitOnChar] using h

theorem splitOnChar_joinLines_flat :
    ∀ (ls : List (List Char)), ls ≠ [] →
      splitOnChar '\n' (joinLines ls) = ls.flatMap (splitOnChar '\n')
  | [], h => absurd rfl h
  | [x], _ => by
    show splitOnChar '\n' x = splitOnChar '\n' x ++ []
    rw [List.append_nil]
  | x :: y :: t, _ => by
    rw [joinLines_cons_cons, splitOnChar_append_cons,
      splitOnChar_joinLines_flat (y :: t) (by simp)]
    simp

theorem splitOnChar_joinLines {ls : List (List Char)} (hne : ls ≠ [])
    (h : ∀ x ∈ ls, '\n' ∉ x) : splitOnChar '\n' (joinLines ls) = ls := by
  rw [splitOnChar_joinLines_flat ls hne]
  clear hne
  induction ls with
  | nil => rfl
  | cons x t ih =>
    simp only [List.flatMap_cons]
    rw [splitOnChar_of_not_mem (h x (List.mem_cons_self x t))]
    rw [ih (fun z hz => h z (List.mem_cons.mpr (Or.inr hz)))]
    rfl

theorem joinLines_append (xs ys : List (List Char)) (hx : xs ≠ [])
    (hy : ys ≠ []) :
    joinLines (xs ++ ys) = joinLines xs ++ '\n' :: joinLines ys := by
  induction xs with
  | nil => exact absurd rfl hx
  | cons x t ih =>
    rcases t with _ | ⟨z, t1⟩
    · rcases ys with _ | ⟨y, ys1⟩
      · exact absurd rfl hy
      · simp [joinLines]
    · calc joinLines ((x :: z :: t1) ++ ys)
          = x ++ '\n' :: joinLines ((z :: t1) ++ ys) := rfl
        _ = x ++ '\n' :: (joinLines (z :: t1) ++ '\n' :: joinLines ys) := by
            rw [ih (by simp)]
        _ = (x ++ '\n' :: joinLines (z :: t1)) ++ '\n' :: joinLines ys := by
            simp
        _ = joinLines (x :: z :: t1) ++ '\n' :: joinLines ys := rfl


/-! ### splitFirst lemmas -/

theorem splitFirst_subset (sep : Char) :
    ∀ (l a b : List Char), splitFirst sep l = some (a, b) →
      (∀ c ∈ a, c ∈ l) ∧ (∀ c ∈ b, c ∈ l) := by
  intro l
  induction l with
  | nil => intro a b h; simp [splitFirst] at h
  | cons x rest ih =>
    intro a b h
    unfold splitFirst at h
    split at h
    · rename_i hx
      cases h
      constructor
      · intro c hc; simp at hc
      · intro c hc; exact List.mem_cons.mpr (Or.inr hc)
    · cases hr : splitFirst sep rest with
      | none => rw [hr] at h; simp at h
      | some p =>
        obtain ⟨a', b'⟩ := p
        rw [hr] at h
        have h2 : x :: a' = a ∧ b' = b := by simpa using h
        obtain ⟨ha2, hb2⟩ := h2
        subst ha2
        subst hb2
        obtain ⟨ha, hb⟩ := ih a' b' hr
        constructor
        · intro c hc
          rcases List.mem_cons.mp hc with h1 | h1
          · exact h1 ▸ List.mem_cons_self x rest
          · exact List.mem_cons.mpr (Or.inr (ha c h1))
        · intro c hc
          exact List.mem_cons.mpr (Or.inr (hb c hc))

/-! ### Fence-marker lemmas -/

theorem fence_decomp {l : List Char} (h : startsFence l = true) :
    l = fenceMarker ++ l.drop 3 := by
  have ht : l.take 3 = fenceMarker := by simpa [startsFence] using h
  conv_lhs => rw [← List.take_append_drop 3 l, ht]

theorem startsFence_fenceMarker_append (x : List Char) :
    startsFence (fenceMarker ++ x) = true := by
  simp [startsFence, fenceMarker]

theorem lstripCh_of_startsFence {l : List Char} (h : startsFence l = true) :
    lstripCh l = l := by
  rw [fence_decomp h]
  rfl

/-! ### scanEmit step equations -/

theorem scanEmit_nil (F : Formatters) (st : ScanState) :
    scanEmit F [] st = .ok ([], st) := rfl

theorem scanEmit_cons_close (F : Formatters) (line : List Char)
    (rest : List (List Char)) (p : Option (List Char))
    (fenced : List (List Char)) (h : startsFence (rstripCh line) = true) :
    scanEmit F (line :: rest) ⟨true, p, fenced⟩ =
      match format_strCh F (joinLines fenced) (p.getD []) with
      | .error e => .error e
      | .ok blk =>
        (scanEmit F rest ScanState.init).map (fun q => (blk :: q.1, q.2)) := by
  simp only [scanEmit, h, ScanState.init]
  rfl

theorem scanEmit_cons_open (F : Formatters) (line : List Char)
    (rest : List (List Char)) (p : Option (List Char))
    (fenced : List (List Char)) (h : startsFence (rstripCh line) = true) :
    scanEmit F (line :: rest) ⟨false, p, fenced⟩ =
      scanEmit F rest ⟨true, some ((stripCh (rstripCh line)).drop 3), fenced⟩ := by
  simp only [scanEmit, h]
  rfl

theorem scanEmit_cons_acc (F : Formatters) (line : List Char)
    (rest : List (List Char)) (p : Option (List Char))
    (fenced : List (List Char)) (h : startsFence (rstripCh line) = false) :
    scanEmit F (line :: rest) ⟨true, p, fenced⟩ =
      scanEmit F rest ⟨true, p, fenced ++ [rstripCh line]⟩ := by
  simp only [scanEmit, h]
  rfl

theorem scanEmit_cons_plain (F : Formatters) (line : List Char)
    (rest : List (List Char)) (p : Option (List Char))
    (fenced : List (List Char)) (h : startsFence (rstripCh line) = false) :
    scanEmit F (line :: rest) ⟨false, p, fenced⟩ =
      (scanEmit F rest ⟨false, p, fenced⟩).map
        (fun q => (rstripCh line :: q.1, q.2)) := by
  simp only [scanEmit, h, rstripCh_idem]
  rfl

theorem scanEmit_append (F : Formatters) (l₁ l₂ : List (List Char))
    (st : ScanState) :
    scanEmit F (l₁ ++ l₂) st =
      (scanEmit F l₁ st).bind
        (fun q => (scanEmit F l₂ q.2).map (fun r => (q.1 ++ r.1, r.2))) := by
  induction l₁ generalizing st with
  | nil =>
    rw [List.nil_append, scanEmit_nil]
    cases h2 : scanEmit F l₂ st with
    | error e => simp [Except.bind, Except.map, h2]
    | ok q => simp [Except.bind, Except.map, h2]
  | cons line l1 ih =>
    obtain ⟨inF, p, fenced⟩ := st
    rw [List.cons_append]
    by_cases hline : startsFence (rstripCh line) = true
    · cases inF with
      | false =>
        rw [scanEmit_cons_open F line _ p fenced hline,
          scanEmit_cons_open F line _ p fenced hline, ih]
      | true =>
        rw [scanEmit_cons_close F line _ p fenced hline,
          scanEmit_cons_close F line _ p fenced hline]
        cases hfmt : format_strCh F (joinLines fenced) (p.getD []) with
        | error e => simp [Except.bind]
        | ok blk =>
          rw [ih]
          cases h1 : scanEmit F l1 ScanState.init with
          | error e => simp [Except.bind, Except.map]
          | ok q =>
            cases h2 : scanEmit F l₂ q.2 with
            | error e => simp [Except.bind, Except.map, h2]
            | ok r => simp [Except.bind, Except.map, h2]
    · have hline' : startsFence (rstripCh line) = false := by
        simpa using hline
      cases inF with
      | true =>
        rw [scanEmit_cons_acc F line _ p fenced hline',
          scanEmit_cons_acc F line _ p fenced hline', ih]
      | false =>
        rw [scanEmit_cons_plain F line _ p fenced hline',
          scanEmit_cons_plain F line _ p fenced hline', ih]
        cases h1 : scanEmit F l1 ⟨false, p, fenced⟩ with
        | error e => simp [Except.bind, Except.map]
        | ok q =>
          cases h2 : scanEmit F l₂ q.2 with
          | error e => simp [Except.bind, Except.map, h2]
          | ok r => simp [Except.bind, Except.map, h2]

theorem scanEmit_body (F : Formatters) (body : List (List Char))
    (h : ∀ b ∈ body, startsFence (rstripCh b) = false) (p : Option (List Char))
    (fenced : List (List Char)) :
    scanEmit F body ⟨true, p, fenced⟩ =
      .ok ([], ⟨true, p, fenced ++ body.map rstripCh⟩) := by
  induction body generalizing fenced with
  | nil => simp [scanEmit_nil]
  | cons b body' ih =>
    rw [scanEmit_cons_acc F b body' p fenced (h b (List.mem_cons_self b body')),
      ih (fun x hx => h x (List.mem_cons.mpr (Or.inr hx)))]
    simp

/-! ### Claim C3: closing fences are recognized only while in a fence -/

/-- C3: in the rewrite-path fence scanner of `format_file`, a line starting
with three backticks encountered while `is_in_fence` is true is treated as a
close — the accumulated block is emitted through `format_str` and the fence
state resets to false/`None`/empty — and the same line encountered while
`is_in_fence` is false opens a fence instead, so a close is never recognized
out of a fence and an in-fence fence marker never nests. -/
theorem fence_marker_close_semantics (F : Formatters) (line : List Char)
    (rest : List (List Char)) (p : Option (List Char))
    (fenced : List (List Char)) (h : startsFence (rstripCh line) = true) :
    (scanEmit F (line :: rest) ⟨true, p, fenced⟩ =
      match format_strCh F (joinLines fenced) (p.getD []) with
      | .error e => .error e
      | .ok blk =>
        (scanEmit F rest ScanState.init).map (fun q => (blk :: q.1, q.2))) ∧
    scanEmit F (line :: rest) ⟨false, p, fenced⟩ =
      scanEmit F rest
        ⟨true, some ((stripCh (rstripCh line)).drop 3), fenced⟩ :=
  ⟨scanEmit_cons_close F line rest p fenced h,
   scanEmit_cons_open F line rest p fenced h⟩

/-- Witness for C3 at the line `"```py"`, state `⟨true/false, none, [['x']]⟩`. -/
theorem fence_marker_close_semantics_witness :
    startsFence (rstripCh "```py".data) = true ∧
    ((scanEmit F0 ["```py".data] ⟨true, none, [['x']]⟩ =
      match format_strCh F0 (joinLines [['x']])
          ((none : Option (List Char)).getD []) with
      | .error e => .error e
      | .ok blk =>
        (scanEmit F0 [] ScanState.init).map (fun q => (blk :: q.1, q.2))) ∧
    scanEmit F0 ["```py".data] ⟨false, none, [['x']]⟩ =
      scanEmit F0 []
        ⟨true, some ((stripCh (rstripCh "```py".data)).drop 3), [['x']]⟩) :=
  ⟨by decide,
   fence_marker_close_semantics F0 "```py".data [] none [['x']] (by decide)⟩

/-! ### Claim C4: an unterminated fence is silently dropped -/

/-- C4: when a file's lines end while a fence is still open (the opening
marker is never matched by a later fence marker), `format_file` emits
nothing for that fence: the output is exactly the output of the lines
before the fence opened, and no error is raised. -/
theorem unterminated_fence_dropped (F : Formatters) (content : String)
    (pre : List (List Char)) (hdrLine : List Char) (body : List (List Char))
    (out : List (List Char)) (st : ScanState)
    (hsplit : fileLines content = pre ++ hdrLine :: body)
    (hpre : scanEmit F pre ScanState.init = .ok (out, st))
    (hst : st.isInFence = false)
    (hhdr : startsFence (rstripCh hdrLine) = true)
    (hbody : ∀ b ∈ body, startsFence (rstripCh b) = false) :
    format_file F content =
      .ok (String.mk (rstripCh (joinLines out) ++ ['\n'])) := by
  unfold format_file
  rw [hsplit, scanEmit_append, hpre]
  obtain ⟨inF, p0, f0⟩ := st
  simp only at hst
  subst hst
  rw [show (Except.ok (out, (⟨false, p0, f0⟩ : ScanState)) :
      Except String (List (List Char) × ScanState)).bind
      (fun q => (scanEmit F (hdrLine :: body) q.2).map
        (fun r => (q.1 ++ r.1, r.2))) =
      (scanEmit F (hdrLine :: body) ⟨false, p0, f0⟩).map
        (fun r => (out ++ r.1, r.2)) from rfl,
    scanEmit_cons_open F hdrLine body p0 f0 hhdr,
    scanEmit_body F body hbody _ f0]
  simp [Except.map]

/-- Witness for C4 on the file `"a\n```py\nx=1"` (fence never closed). -/
theorem unterminated_fence_dropped_witness :
    fileLines "a\n```py\nx=1" = [['a']] ++ "```py".data :: ["x=1".data] ∧
    scanEmit F0 [['a']] ScanState.init = .ok ([['a']], ScanState.init) ∧
    ScanState.init.isInFence = false ∧
    startsFence (rstripCh "```py".data) = true ∧
    (∀ b ∈ ["x=1".data], startsFence (rstripCh b) = false) ∧
    format_file F0 "a\n```py\nx=1" = .ok "a\n" :=
  ⟨by decide, by decide, by decide, by decide, by decide,
   (unterminated_fence_dropped F0 "a\n```py\nx=1" [['a']] "```py".data
     ["x=1".data] [['a']] ScanState.init (by decide) (by decide) (by decide)
     (by decide) (by decide)).trans (by decide)⟩

/-! ### Claim C5: the passthrough branch of format_str -/

/-- C5 counterexample: the passthrough branch does NOT use the original
header text — `format_str` lowercases (and strips) the header before
wrapping, so the header `"Bash"` is emitted as `"bash"`, not `"Bash"` as
the claim states. -/
theorem passthrough_original_header_counterexample :
    format_str F0 "x" "Bash" = .ok "```bash\nx\n```" ∧
    format_str F0 "x" "Bash" ≠ .ok "```Bash\nx\n```" := by
  constructor
  · decide
  · decide

/-- C5 amended: for every header whose stripped lowercased form starts
neither with `py` nor with `r`, `format_str` wraps the code unchanged in
fence markers, using the STRIPPED LOWERCASED header text on the opening
fence marker. -/
theorem passthrough_wraps_code_unchanged (F : Formatters)
    (code params : String)
    (hpy : (toLowerCh (stripCh params.data)).take 2 ≠ ['p', 'y'])
    (hr : (toLowerCh (stripCh params.data)).take 1 ≠ ['r']) :
    format_str F code params =
      .ok (String.mk (fenceWrap (toLowerCh (stripCh params.data))
        code.data)) := by
  unfold format_str format_strCh
  simp [hpy, hr, Except.map]

/-- Witness for C5 (amended) at header `"Bash"`, code `"x"`. -/
theorem passthrough_wraps_code_unchanged_witness :
    (toLowerCh (stripCh "Bash".data)).take 2 ≠ ['p', 'y'] ∧
    (toLowerCh (stripCh "Bash".data)).take 1 ≠ ['r'] ∧
    format_str F0 "x" "Bash" = .ok "```bash\nx\n```" :=
  ⟨by decide, by decide,
   (passthrough_wraps_code_unchanged F0 "x" "Bash" (by decide)
     (by decide)).trans (by decide)⟩

/-! ### Claim C8: FormatError propagation and the batch loop -/

/-- C8 counterexample: when the in-process formatter rejects the first
file's block, the whole batch aborts — the second file, which succeeds on
its own, is NOT written, contradicting the claim that other files in the
batch still proceed. -/
theorem format_error_batch_counterexample :
    style_command Ffail [("a.md", "```py\nx\n```"), ("b.md", "hello")] =
      ([], some "invalid-input") ∧
    style_command Ffail [("b.md", "hello")] =
      ([("b.md", "hello\n\n")], none) := by
  constructor
  · decide
  · decide

/-- C8 amended: a `FormatError` from the in-process formatter propagates
unchanged out of `format_str` (the `py` branch) and out of `format_file`,
and the failing file is not written; but the batch loop aborts with it —
the failing file and every later file in the batch are left unwritten. -/
theorem format_error_propagation (F : Formatters) (src params : List Char)
    (e : String) (name content : String) (rest : List (String × String))
    (hpy : (toLowerCh (stripCh params)).take 2 = ['p', 'y'])
    (herr : F.pyFormat src = .error e)
    (hscan : scanEmit F (fileLines content) ScanState.init = .error e) :
    format_strCh F src params = .error e ∧
    format_file F content = .error e ∧
    style_command F ((name, content) :: rest) = ([], some e) := by
  have h1 : format_strCh F src params = .error e := by
    unfold format_strCh
    simp [hpy, herr, Except.map]
  have h2 : format_file F content = .error e := by
    unfold format_file
    rw [hscan]
    rfl
  refine ⟨h1, h2, ?_⟩
  unfold style_command
  rw [h2]

/-- Witness for C8 (amended) on the file `"```py\nx\n```"` under the
always-failing formatter. -/
theorem format_error_propagation_witness :
    (toLowerCh (stripCh "py".data)).take 2 = ['p', 'y'] ∧
    Ffail.pyFormat "x".data = .error "invalid-input" ∧
    scanEmit Ffail (fileLines "```py\nx\n```") ScanState.init =
      .error "invalid-input" ∧
    (format_strCh Ffail "x".data "py".data = .error "invalid-input" ∧
    format_file Ffail "```py\nx\n```" = .error "invalid-input" ∧
    style_command Ffail [("a.md", "```py\nx\n```"), ("b.md", "hello")] =
      ([], some "invalid-input")) :=
  ⟨by decide, by decide, by decide,
   format_error_propagation Ffail "x".data "py".data "invalid-input" "a.md"
     "```py\nx\n```" [("b.md", "hello")] (by decide) (by decide) (by decide)⟩

/-! ### Claim C9: trailing newlines of the written file -/

/-- C9 counterexample: the content written back by `style_command` ends
with TWO trailing newlines, not exactly one — `format_file` returns a
string with exactly one trailing newline, and the `print`-based write
appends another. -/
theorem written_trailing_newline_counterexample :
    style_command F0 [("f.md", "x")] = ([("f.md", "x\n\n")], none) ∧
    endsOneNewline "x\n\n" = false := by
  constructor
  · decide
  · decide

/-- C9 amended: the string returned by `format_file` ends with exactly one
trailing newline (joined lines are stripped of trailing whitespace and one
newline is appended), but `style_command` writes that string plus one more
newline added by the writer, so the written file content ends with exactly
two trailing newlines. -/
theorem format_file_trailing_newline (F : Formatters) (content out : String)
    (name : String) (rest : List (String × String))
    (h : format_file F content = .ok out) :
    endsOneNewline out = true ∧
    (style_command F ((name, content) :: rest)).1.head? =
      some (name, out ++ "\n") ∧
    endsOneNewline (out ++ "\n") = false := by
  have hout : ∃ us : List (List Char),
      out = String.mk (rstripCh (joinLines us) ++ ['\n']) := by
    unfold format_file at h
    cases hs : scanEmit F (fileLines content) ScanState.init with
    | error e => rw [hs] at h; simp [Except.map] at h
    | ok p =>
      rw [hs] at h
      simp only [Except.map, Except.ok.injEq] at h
      exact ⟨p.1, h.symm⟩
  obtain ⟨us, hus⟩ := hout
  have hdata : out.data = rstripCh (joinLines us) ++ ['\n'] := by
    rw [hus]
  refine ⟨?_, ?_, ?_⟩
  · unfold endsOneNewline
    rw [hdata, List.getLast?_concat, List.dropLast_concat]
    cases hJ : (rstripCh (joinLines us)).getLast? with
    | none => simp
    | some c =>
      have hc : isPySpace c = false := rstripCh_getLast_not_space _ _ hJ
      have hcn : c ≠ '\n' := by
        intro hcc
        subst hcc
        simp [isPySpace] at hc
      simp [hcn]
  · simp only [style_command]
    rw [h]
    rfl
  · unfold endsOneNewline
    have hdata2 : (out ++ "\n").data = out.data ++ ['\n'] := rfl
    rw [hdata2, hdata, List.getLast?_concat]
    rw [show rstripCh (joinLines us) ++ ['\n'] ++ ['\n'] =
      (rstripCh (joinLines us) ++ ['\n']) ++ ['\n'] from by simp,
      List.dropLast_concat, List.getLast?_concat]
    simp

/-- Witness for C9 (amended) on the one-file batch `[("f.md", "x")]`. -/
theorem format_file_trailing_newline_witness :
    format_file F0 "x" = .ok "x\n" ∧
    (endsOneNewline "x\n" = true ∧
    (style_command F0 [("f.md", "x")]).1.head? = some ("f.md", "x\n" ++ "\n") ∧
    endsOneNewline ("x\n" ++ "\n") = false) :=
  ⟨by decide,
   format_file_trailing_newline F0 "x" "x\n" "f.md" [] (by decide)⟩

/-! ### format_strCh branch lemmas -/

theorem format_strCh_passthrough (F : Formatters) (src q : List Char)
    (hfix : toLowerCh (stripCh q) = q) (hnpy : q.take 2 ≠ ['p', 'y'])
    (hnr : q.take 1 ≠ ['r']) :
    format_strCh F src q = .ok (fenceWrap q src) := by
  simp [format_strCh, hfix, hnpy, hnr]

theorem format_strCh_py (F : Formatters) (src q : List Char)
    (hfix : toLowerCh (stripCh q) = q) (hpy : q.take 2 = ['p', 'y']) :
    format_strCh F src q =
      (F.pyFormat src).map (fun f => fenceWrap q (rstripCh f)) := by
  simp [format_strCh, hfix, hpy]

theorem format_strCh_r (F : Formatters) (src q : List Char)
    (hfix : toLowerCh (stripCh q) = q) (hnpy : q.take 2 ≠ ['p', 'y'])
    (hr : q.take 1 = ['r']) :
    format_strCh F src q = .ok (fenceWrap q (rstripCh (F.rFormat src))) := by
  simp [format_strCh, hfix, hnpy, hr]

theorem joinLines_cons_ne (x : List Char) {A : List (List Char)}
    (h : A ≠ []) : joinLines (x :: A) = x ++ '\n' :: joinLines A := by
  cases A with
  | nil => exact absurd rfl h
  | cons y t => rfl

theorem stripCh_of_rstrip_fence {o : List Char}
    (ho : startsFence (rstripCh o) = true) :
    stripCh (rstripCh o) = rstripCh o := by
  unfold stripCh
  rw [lstripCh_of_startsFence ho, rstripCh_idem]

/-! ### Claim C6: passthrough files are only normalized -/

theorem scanEmit_passthrough (F : Formatters) {lines : List (List Char)}
    (h : PassthroughLines lines) :
    ∃ units, scanEmit F lines ScanState.init = .ok (units, ScanState.init) ∧
      joinLines units = joinLines (lines.map rstripCh) ∧
      (units = [] ↔ lines = []) := by
  induction h with
  | nil => exact ⟨[], rfl, rfl, by simp⟩
  | plain l rest hl _ ih =>
    obtain ⟨units, hscan, hjoin, hiff⟩ := ih
    refine ⟨rstripCh l :: units, ?_, ?_, by simp⟩
    · rw [show (ScanState.init : ScanState) = ⟨false, none, []⟩ from rfl,
        scanEmit_cons_plain F l rest none [] hl,
        show (⟨false, none, []⟩ : ScanState) = ScanState.init from rfl, hscan]
      rfl
    · rcases rest with _ | ⟨r1, rs⟩
      · have hu : units = [] := hiff.mpr rfl
        subst hu
        rfl
      · have hune : units ≠ [] := fun hn => by simpa using hiff.mp hn
        rw [List.map_cons, joinLines_cons_ne _ hune,
          joinLines_cons_ne _ (show (r1 :: rs).map rstripCh ≠ [] by simp),
          ← hjoin]
  | fence o body c rest ho hq hnpy hnr hbody hbl hc _ ih =>
    obtain ⟨units, hscan, hjoin, hiff⟩ := ih
    have hq0 : (stripCh (rstripCh o)).drop 3 = (rstripCh o).drop 3 := by
      rw [stripCh_of_rstrip_fence ho]
    have hcfence : startsFence (rstripCh c) = true := by
      rw [hc]; decide
    have hfmt : format_strCh F (joinLines (body.map rstripCh))
        ((rstripCh o).drop 3) =
        .ok (fenceWrap ((rstripCh o).drop 3)
          (joinLines (body.map rstripCh))) :=
      format_strCh_passthrough F _ _ hq hnpy hnr
    refine ⟨fenceWrap ((rstripCh o).drop 3) (joinLines (body.map rstripCh))
      :: units, ?_, ?_, by simp⟩
    · rw [show (ScanState.init : ScanState) = ⟨false, none, []⟩ from rfl,
        scanEmit_cons_open F o _ none [] ho, hq0, scanEmit_append,
        scanEmit_body F body hbl _ [], List.nil_append]
      rw [show (Except.ok ([], (⟨true, some ((rstripCh o).drop 3),
          body.map rstripCh⟩ : ScanState)) :
          Except String (List (List Char) × ScanState)).bind
          (fun q => (scanEmit F (c :: rest) q.2).map
            (fun r => (q.1 ++ r.1, r.2))) =
          (scanEmit F (c :: rest)
            ⟨true, some ((rstripCh o).drop 3), body.map rstripCh⟩).map
            (fun r => ([] ++ r.1, r.2)) from rfl,
        scanEmit_cons_close F c rest _ _ hcfence]
      simp only [Option.getD_some, hfmt, hscan, Except.map]
      rfl
    · have hmb : body.map rstripCh ≠ [] := by
        intro hmb
        exact hbody (List.map_eq_nil_iff.mp hmb)
      have hdeco : rstripCh o = fenceMarker ++ (rstripCh o).drop 3 :=
        fence_decomp ho
      rw [List.map_cons, List.map_append, List.map_cons,
        joinLines_cons_ne _
          (show body.map rstripCh ++ rstripCh c :: rest.map rstripCh ≠ []
            by simp),
        joinLines_append (body.map rstripCh) (rstripCh c :: rest.map rstripCh)
          hmb (by simp), hc]
      rcases rest with _ | ⟨r1, rs⟩
      · have hu : units = [] := hiff.mpr rfl
        subst hu
        conv_rhs => rw [hdeco]
        simp [joinLines, fenceWrap, List.append_assoc]
      · have hune : units ≠ [] := fun hn => by simpa using hiff.mp hn
        rw [joinLines_cons_ne _ hune,
          joinLines_cons_ne _ (show (r1 :: rs).map rstripCh ≠ [] by simp),
          ← hjoin]
        conv_rhs => rw [hdeco]
        simp [fenceWrap, List.append_assoc]

/-- C6 counterexample: a fence header that differs from its stripped
lowercased form is rewritten (here `Bash` becomes `bash`), so a file with no
recognized-language fences (routed neither to the Python formatter nor to
the R toolchain) is NOT left unchanged up to trailing-whitespace/newline
normalization. -/
theorem passthrough_roundtrip_counterexample :
    (toLowerCh (stripCh "Bash".data)).take 2 ≠ ['p', 'y'] ∧
    (toLowerCh (stripCh "Bash".data)).take 1 ≠ ['r'] ∧
    format_file F0 "```Bash\nx\n```" = .ok "```bash\nx\n```\n" ∧
    normalizeFile "```Bash\nx\n```" = "```Bash\nx\n```\n" ∧
    ("```bash\nx\n```\n" : String) ≠ "```Bash\nx\n```\n" := by
  refine ⟨by decide, by decide, by decide, by decide, by decide⟩

/-- C6 amended: a file whose fences are all unrecognized-language fences
already in canonical form — opening header strip/lower-invariant, non-empty
fence body, bare triple-backtick closing line — is unchanged by
`format_file` except for trailing-whitespace/newline normalization
(`normalizeFile`). -/
theorem passthrough_file_normalized (F : Formatters) (content : String)
    (h : PassthroughLines (fileLines content)) :
    format_file F content = .ok (normalizeFile content) := by
  obtain ⟨units, hscan, hjoin, _⟩ := scanEmit_passthrough F h
  unfold format_file normalizeFile
  rw [hscan]
  simp only [Except.map]
  rw [hjoin]

/-- Witness for C6 (amended) on the file `"a\n```bash\nx\n```\n"`. -/
theorem passthrough_file_normalized_witness :
    PassthroughLines (fileLines "a\n```bash\nx\n```\n") ∧
    format_file F0 "a\n```bash\nx\n```\n" = .ok "a\n```bash\nx\n```\n" := by
  have hfl : fileLines "a\n```bash\nx\n```\n" =
      [['a'], "```bash".data, ['x'], "```".data] := by decide
  have hp : PassthroughLines (fileLines "a\n```bash\nx\n```\n") := by
    rw [hfl]
    exact PassthroughLines.plain ['a'] _ (by decide)
      (PassthroughLines.fence "```bash".data [['x']] "```".data []
        (by decide) (by decide) (by decide) (by decide) (by decide)
        (by decide) (by decide) PassthroughLines.nil)
  exact ⟨hp, (passthrough_file_normalized F0 _ hp).trans (by decide)⟩

/-! ### Dict-of-lists lemmas -/

theorem dictAppend_keys {α : Type} (d : List (List Char × List α))
    (k : List Char) (v : α) :
    (dictAppend d k v).map Prod.fst =
      if k ∈ d.map Prod.fst then d.map Prod.fst
      else d.map Prod.fst ++ [k] := by
  induction d with
  | nil => simp [dictAppend]
  | cons e rest ih =>
    obtain ⟨k', vs⟩ := e
    by_cases hk : k' = k
    · subst hk
      simp [dictAppend]
    · simp only [dictAppend, if_neg hk, List.map_cons, ih]
      by_cases hmem : k ∈ rest.map Prod.fst
      · rw [if_pos hmem,
          if_pos (List.mem_cons.mpr (Or.inr hmem))]
      · rw [if_neg hmem,
          if_neg (fun hc => by
            rcases List.mem_cons.mp hc with h1 | h1
            · exact hk h1.symm
            · exact hmem h1)]
        rfl

theorem dictFindD_dictAppend {α : Type} (d : List (List Char × List α))
    (k : List Char) (v : α) (g : List Char) :
    dictFindD (dictAppend d k v) g =
      dictFindD d g ++ (if g = k then [v] else []) := by
  induction d with
  | nil =>
    by_cases hgk : g = k
    · subst hgk
      simp [dictAppend, dictFindD, dictFind?]
    · have hkg : ¬ k = g := fun h => hgk h.symm
      simp [dictAppend, dictFindD, dictFind?, hkg, hgk]
  | cons e rest ih =>
    obtain ⟨k', vs⟩ := e
    by_cases hk : k' = k
    · subst hk
      by_cases hgk : k' = g
      · subst hgk
        simp [dictAppend, dictFindD, dictFind?]
      · have hgk' : ¬ g = k' := fun h => hgk h.symm
        simp [dictAppend, dictFindD, dictFind?, hgk, hgk']
    · by_cases hgk : k' = g
      · subst hgk
        have hk'' : ¬ k' = k := hk
        simp [dictAppend, dictFindD, dictFind?, hk'']
      · simp only [dictAppend, if_neg hk]
        simp only [dictFindD, dictFind?, if_neg hgk]
        exact ih

theorem firstOccAux_congr {s₁ s₂ : List (List Char)}
    (h : ∀ a, a ∈ s₁ ↔ a ∈ s₂) :
    ∀ l, firstOccAux s₁ l = firstOccAux s₂ l := by
  intro l
  induction l generalizing s₁ s₂ with
  | nil => rfl
  | cons x xs ih =>
    by_cases hx : x ∈ s₁
    · simp [firstOccAux, hx, (h x).mp hx, ih h]
    · have hx2 : x ∉ s₂ := fun hc => hx ((h x).mpr hc)
      simp only [firstOccAux, if_neg hx, if_neg hx2]
      rw [@ih (x :: s₁) (x :: s₂) (fun a => by simp [List.mem_cons, h a])]

theorem buildDictFrom_keys {α : Type} (ps : List (List Char × α)) :
    ∀ (d : List (List Char × List α)),
      (buildDictFrom d ps).map Prod.fst =
        d.map Prod.fst ++ firstOccAux (d.map Prod.fst) (ps.map Prod.fst) := by
  induction ps with
  | nil => intro d; simp [buildDictFrom, firstOccAux]
  | cons p ps ih =>
    intro d
    rw [show buildDictFrom d (p :: ps) =
      buildDictFrom (dictAppend d p.1 p.2) ps from rfl, ih, dictAppend_keys]
    by_cases hmem : p.1 ∈ d.map Prod.fst
    · rw [if_pos hmem]
      simp only [List.map_cons, firstOccAux, if_pos hmem]
    · rw [if_neg hmem]
      simp only [List.map_cons, firstOccAux, if_neg hmem, List.append_assoc,
        List.singleton_append]
      congr 2
      exact firstOccAux_congr
        (fun a => by simp [List.mem_append, List.mem_cons, or_comm]) _

theorem buildDictFrom_findD {α : Type} (ps : List (List Char × α)) :
    ∀ (d : List (List Char × List α)) (g : List Char),
      dictFindD (buildDictFrom d ps) g =
        dictFindD d g ++
          ps.filterMap (fun p => if p.1 = g then some p.2 else none) := by
  induction ps with
  | nil => intro d g; simp [buildDictFrom]
  | cons p ps ih =>
    intro d g
    rw [show buildDictFrom d (p :: ps) =
      buildDictFrom (dictAppend d p.1 p.2) ps from rfl, ih,
      dictFindD_dictAppend, List.filterMap_cons]
    by_cases hpg : p.1 = g
    · rw [if_pos hpg, if_pos hpg.symm]
      simp
    · rw [if_neg hpg, if_neg (fun h => hpg (h : g = p.1).symm)]
      simp

theorem firstOccAux_nodup :
    ∀ (l seen : List (List Char)),
      (firstOccAux seen l).Nodup ∧ ∀ x ∈ firstOccAux seen l, x ∉ seen := by
  intro l
  induction l with
  | nil => intro seen; simp [firstOccAux]
  | cons x xs ih =>
    intro seen
    by_cases hx : x ∈ seen
    · simpa [firstOccAux, hx] using ih seen
    · obtain ⟨hnd, hmem⟩ := ih (x :: seen)
      simp only [firstOccAux, if_neg hx]
      constructor
      · exact List.nodup_cons.mpr
          ⟨fun hc => (hmem x hc) (List.mem_cons_self x seen), hnd⟩
      · intro y hy
        rcases List.mem_cons.mp hy with h1 | h1
        · exact h1 ▸ hx
        · exact fun hc => hmem y h1 (List.mem_cons.mpr (Or.inr hc))

theorem mem_firstOccAux :
    ∀ (l seen x : _), x ∈ firstOccAux seen l ↔ (x ∈ l ∧ x ∉ seen) := by
  intro l
  induction l with
  | nil => intro seen x; simp [firstOccAux]
  | cons y ys ih =>
    intro seen x
    by_cases hy : y ∈ seen
    · rw [show firstOccAux seen (y :: ys) = firstOccAux seen ys from by
        simp [firstOccAux, hy], ih]
      constructor
      · rintro ⟨h1, h2⟩
        exact ⟨List.mem_cons.mpr (Or.inr h1), h2⟩
      · rintro ⟨h1, h2⟩
        rcases List.mem_cons.mp h1 with h3 | h3
        · exact absurd (h3 ▸ hy) h2
        · exact ⟨h3, h2⟩
    · rw [show firstOccAux seen (y :: ys) =
        y :: firstOccAux (y :: seen) ys from by simp [firstOccAux, hy]]
      constructor
      · intro hx
        rcases List.mem_cons.mp hx with h1 | h1
        · exact ⟨h1 ▸ List.mem_cons_self y ys, h1 ▸ hy⟩
        · obtain ⟨h2, h3⟩ := (ih (y :: seen) x).mp h1
          exact ⟨List.mem_cons.mpr (Or.inr h2),
            fun hc => h3 (List.mem_cons.mpr (Or.inr hc))⟩
      · rintro ⟨h1, h2⟩
        rcases List.mem_cons.mp h1 with h3 | h3
        · exact List.mem_cons.mpr (Or.inl h3)
        · by_cases hxy : x = y
          · exact List.mem_cons.mpr (Or.inl hxy)
          · exact List.mem_cons.mpr (Or.inr ((ih (y :: seen) x).mpr
              ⟨h3, fun hc => by
                rcases List.mem_cons.mp hc with h4 | h4
                · exact hxy h4
                · exact h2 h4⟩))

theorem dict_map_eq_keys_map {α β : Type} (f : List α → β) :
    ∀ (d : List (List Char × List α)), (d.map Prod.fst).Nodup →
      d.map (fun e => f e.2) =
        (d.map Prod.fst).map (fun g => f (dictFindD d g)) := by
  intro d
  induction d with
  | nil => intro _; rfl
  | cons e rest ih =>
    obtain ⟨k, vs⟩ := e
    intro hnd
    have hnd' : (k :: rest.map Prod.fst).Nodup := by simpa using hnd
    have hk : k ∉ rest.map Prod.fst := (List.nodup_cons.mp hnd').1
    have hrest : (rest.map Prod.fst).Nodup := (List.nodup_cons.mp hnd').2
    simp only [List.map_cons]
    congr 1
    · simp [dictFindD, dictFind?]
    · rw [ih hrest]
      apply List.map_congr_left
      intro g hg
      have hgk : ¬ k = g := fun h => hk (h ▸ hg)
      simp [dictFindD, dictFind?, hgk]

/-! ### scanAst structure -/

theorem scanAst_spec (loc : String) :
    ∀ (ast : List AstElt) (named : List (List Char × List CodeBlock))
      (unnamed : List CodeBlock),
      scanAst loc ast named unnamed =
        (buildDictFrom named (namedPairs loc ast),
          unnamed ++ unnamedOf loc ast) := by
  intro ast
  induction ast with
  | nil =>
    intro named unnamed
    simp [scanAst, namedPairs, unnamedOf, buildDictFrom]
  | cons elt rest ih =>
    intro named unnamed
    cases hp : processElt loc elt with
    | none =>
      have h1 : namedPairs loc (elt :: rest) = namedPairs loc rest := by
        simp [namedPairs, List.filterMap_cons, hp]
      have h2 : unnamedOf loc (elt :: rest) = unnamedOf loc rest := by
        simp [unnamedOf, List.filterMap_cons, hp]
      rw [h1, h2, show scanAst loc (elt :: rest) named unnamed =
        scanAst loc rest named unnamed from by simp [scanAst, hp]]
      exact ih named unnamed
    | some p =>
      obtain ⟨name, block⟩ := p
      by_cases hname : name = ""
      · subst hname
        have h1 : namedPairs loc (elt :: rest) = namedPairs loc rest := by
          simp [namedPairs, List.filterMap_cons, hp]
        have h2 : unnamedOf loc (elt :: rest) =
            block :: unnamedOf loc rest := by
          simp [unnamedOf, List.filterMap_cons, hp]
        rw [h1, h2, show scanAst loc (elt :: rest) named unnamed =
          scanAst loc rest named (unnamed ++ [block]) from by
            simp [scanAst, hp], ih]
        simp
      · have h1 : namedPairs loc (elt :: rest) =
            (name.data, block) :: namedPairs loc rest := by
          simp [namedPairs, List.filterMap_cons, hp, hname]
        have h2 : unnamedOf loc (elt :: rest) = unnamedOf loc rest := by
          simp [unnamedOf, List.filterMap_cons, hp, hname]
        rw [h1, h2, show scanAst loc (elt :: rest) named unnamed =
          scanAst loc rest (dictAppend named name.data block) unnamed from by
            simp [scanAst, hp, hname], ih]
        rfl

theorem getTopLevel_structure (ast : List AstElt) (loc : String) :
    getTopLevelBlockCodes ast loc =
      unnamedOf loc ast ++ (groupNames loc ast).map
        (fun g => mergeGroup loc (membersOf loc ast g)) := by
  unfold getTopLevelBlockCodes
  rw [scanAst_spec loc ast [] []]
  simp only [List.nil_append]
  congr 1
  have hkeys : (buildDictFrom [] (namedPairs loc ast)).map Prod.fst =
      groupNames loc ast := by
    rw [buildDictFrom_keys]
    simp [groupNames]
  have hnd : ((buildDictFrom [] (namedPairs loc ast)).map Prod.fst).Nodup := by
    rw [hkeys]
    exact (firstOccAux_nodup _ _).1
  rw [dict_map_eq_keys_map (mergeGroup loc) _ hnd, hkeys]
  apply List.map_congr_left
  intro g _
  congr 1
  rw [show dictFindD (buildDictFrom [] (namedPairs loc ast)) g =
    dictFindD [] g ++ (namedPairs loc ast).filterMap
      (fun p => if p.1 = g then some p.2 else none) from
    buildDictFrom_findD (namedPairs loc ast) [] g]
  rfl

/-! ### Claim C2: extraction order and counting -/

/-- C2: `get_top_level_block_codes` returns the unnamed blocks in document
(encounter) order followed by one synthesized block per named group in
first-occurrence order of the group names, and the length of the result is
the number of unnamed fenced blocks plus the number of distinct group
names. -/
theorem extraction_order_and_count (ast : List AstElt) (loc : String) :
    getTopLevelBlockCodes ast loc =
      unnamedOf loc ast ++ (groupNames loc ast).map
        (fun g => mergeGroup loc (membersOf loc ast g)) ∧
    (getTopLevelBlockCodes ast loc).length =
      (unnamedOf loc ast).length + (groupNames loc ast).length := by
  refine ⟨getTopLevel_structure ast loc, ?_⟩
  rw [getTopLevel_structure ast loc]
  simp

/-! ### Claim C1: named groups merge into one block -/

/-- C1: every named group (non-empty `example` name `g` with at least one
member) yields exactly one synthesized block — `g` occurs in the duplicate-
free group-name list (so exactly one merged block is synthesized for it),
the result is the unnamed blocks followed by the per-group merged blocks,
and the merged block for `g` has the members' codes joined by a blank line
(two newlines) in encounter order with the first member's language and
options and the call's location. -/
theorem named_group_merged (ast : List AstElt) (loc : String) (g : List Char)
    (b : CodeBlock) (ms : List CodeBlock) (hg : g ≠ [])
    (hm : membersOf loc ast g = b :: ms) :
    (g ∈ groupNames loc ast ∧ (groupNames loc ast).Nodup) ∧
    getTopLevelBlockCodes ast loc =
      unnamedOf loc ast ++ (groupNames loc ast).map
        (fun g' => mergeGroup loc (membersOf loc ast g')) ∧
    mergeGroup loc (b :: ms) =
      ⟨b.language, String.intercalate "\n\n" ((b :: ms).map CodeBlock.code),
        b.options, loc⟩ := by
  refine ⟨⟨?_, (firstOccAux_nodup _ _).1⟩, getTopLevel_structure ast loc, rfl⟩
  have hmem : g ∈ (namedPairs loc ast).map Prod.fst := by
    have hb : b ∈ membersOf loc ast g := by
      rw [hm]
      exact List.mem_cons_self b ms
    unfold membersOf at hb
    obtain ⟨p, hp, hpe⟩ := List.mem_filterMap.mp hb
    by_cases h1 : p.1 = g
    · exact h1 ▸ List.mem_map_of_mem Prod.fst hp
    · rw [if_neg h1] at hpe
      cases hpe
  exact (mem_firstOccAux _ _ g).mpr ⟨hmem, by simp⟩

/-- Witness for C1 on an AST with two `py?example=a` blocks separated by a
non-code node. -/
theorem named_group_merged_witness :
    (['a'] : List Char) ≠ [] ∧
    membersOf "f.md"
      [AstElt.blockCode (some "py?example=a") "c1", AstElt.other,
       AstElt.blockCode (some "py?example=a") "c2"] ['a'] =
      ⟨"py", "c1", [("example", ["a"])], "f.md"⟩ ::
        [⟨"py", "c2", [("example", ["a"])], "f.md"⟩] ∧
    ((['a'] ∈ groupNames "f.md"
      [AstElt.blockCode (some "py?example=a") "c1", AstElt.other,
       AstElt.blockCode (some "py?example=a") "c2"] ∧
      (groupNames "f.md"
        [AstElt.blockCode (some "py?example=a") "c1", AstElt.other,
         AstElt.blockCode (some "py?example=a") "c2"]).Nodup) ∧
    getTopLevelBlockCodes
      [AstElt.blockCode (some "py?example=a") "c1", AstElt.other,
       AstElt.blockCode (some "py?example=a") "c2"] "f.md" =
      unnamedOf "f.md"
        [AstElt.blockCode (some "py?example=a") "c1", AstElt.other,
         AstElt.blockCode (some "py?example=a") "c2"] ++
      (groupNames "f.md"
        [AstElt.blockCode (some "py?example=a") "c1", AstElt.other,
         AstElt.blockCode (some "py?example=a") "c2"]).map
        (fun g' => mergeGroup "f.md" (membersOf "f.md"
          [AstElt.blockCode (some "py?example=a") "c1", AstElt.other,
           AstElt.blockCode (some "py?example=a") "c2"] g')) ∧
    mergeGroup "f.md"
      (⟨"py", "c1", [("example", ["a"])], "f.md"⟩ ::
        [⟨"py", "c2", [("example", ["a"])], "f.md"⟩]) =
      ⟨"py", String.intercalate "\n\n"
        ((⟨"py", "c1", [("example", ["a"])], "f.md"⟩ ::
          [(⟨"py", "c2", [("example", ["a"])], "f.md"⟩ : CodeBlock)]).map
            CodeBlock.code),
        [("example", ["a"])], "f.md"⟩) :=
  ⟨by decide, by decide,
   named_group_merged _ "f.md" ['a'] _ _ (by decide) (by decide)⟩

/-! ### Claim C10: lowercasing of headers, options, and group names -/

theorem mkBlock_eq (loc info t : String) :
    mkBlock loc info t =
      (String.mk (headerName (toLowerCh info.data)),
        ⟨String.mk (headerLanguage (toLowerCh info.data)), t,
          headerOptions (toLowerCh info.data), loc⟩) := by
  unfold mkBlock headerName headerOptions headerLanguage
  cases hsf : splitFirst '?' (toLowerCh info.data) with
  | none => simp [hsf]
  | some p =>
    obtain ⟨lang, opts⟩ := p
    by_cases hoe : opts = [] <;> simp [hsf, hoe]

theorem noUpper_toLowerCh (l : List Char) : NoUpper (toLowerCh l) := by
  intro c hc
  obtain ⟨c', _, rfl⟩ := List.mem_map.mp hc
  exact isUpperCh_pyToLower c'

theorem percent_not_mem_toLowerCh {l : List Char} (h : '%' ∉ l) :
    '%' ∉ toLowerCh l :=
  not_mem_toLowerCh (by decide) h

theorem unquotePlus_no_percent {x : List Char} (h : '%' ∉ x) :
    unquotePlus x = x.map (fun c => if c = '+' then ' ' else c) := by
  induction x with
  | nil => rfl
  | cons c rest ih =>
    have hc : ¬ c = '%' := fun hcc => h (hcc ▸ List.mem_cons_self c rest)
    have hrest : '%' ∉ rest := fun hm => h (List.mem_cons.mpr (Or.inr hm))
    rw [unquotePlus.eq_def]
    split
    · rename_i heq
      cases heq
    · rename_i h₁ h₂ rest' heq
      injection heq with hceq _
      exact absurd hceq hc
    · rename_i c' rest'' heq
      injection heq with hceq hreq
      subst hceq
      subst hreq
      rw [List.map_cons, ih hrest]

theorem noUpper_unquotePlus {x : List Char} (hU : NoUpper x)
    (hP : '%' ∉ x) : NoUpper (unquotePlus x) := by
  rw [unquotePlus_no_percent hP]
  intro c hc
  obtain ⟨c', hc', rfl⟩ := List.mem_map.mp hc
  by_cases hplus : c' = '+'
  · simp [hplus]
    decide
  · simpa [hplus] using hU c' hc'

theorem noUpper_of_subset {x y : List Char} (h : NoUpper y)
    (hsub : ∀ c ∈ x, c ∈ y) : NoUpper x :=
  fun c hc => h c (hsub c hc)

theorem not_percent_of_subset {x y : List Char} (h : '%' ∉ y)
    (hsub : ∀ c ∈ x, c ∈ y) : '%' ∉ x :=
  fun hm => h (hsub '%' hm)

theorem parseQsl_entries {qs : List Char} (hU : NoUpper qs) (hP : '%' ∉ qs) :
    ∀ p ∈ parseQsl qs, NoUpper p.1 ∧ NoUpper p.2 := by
  intro p hp
  unfold parseQsl at hp
  obtain ⟨nv, hnv, hpe⟩ := List.mem_filterMap.mp hp
  have hnvsub := mem_splitOnChar_subset '&' qs nv hnv
  have hUnv : NoUpper nv := noUpper_of_subset hU hnvsub
  have hPnv : '%' ∉ nv := not_percent_of_subset hP hnvsub
  by_cases hne : nv = []
  · rw [if_pos hne] at hpe
    cases hpe
  · rw [if_neg hne] at hpe
    cases hsp : splitFirst '=' nv with
    | none =>
      rw [hsp] at hpe
      cases hpe
    | some q =>
      obtain ⟨n, v⟩ := q
      rw [hsp] at hpe
      have hpe2 : (if v = [] then none
          else some (unquotePlus n, unquotePlus v)) = some p := hpe
      by_cases hve : v = []
      · rw [if_pos hve] at hpe2
        cases hpe2
      · rw [if_neg hve] at hpe2
        obtain ⟨hn, hv⟩ := splitFirst_subset '=' nv n v hsp
        have hpeq : (unquotePlus n, unquotePlus v) = p := by
          injection hpe2
        subst hpeq
        exact ⟨noUpper_unquotePlus (noUpper_of_subset hUnv hn)
            (not_percent_of_subset hPnv hn),
          noUpper_unquotePlus (noUpper_of_subset hUnv hv)
            (not_percent_of_subset hPnv hv)⟩

theorem dictAppend_entries {α : Type} (P : List Char → Prop) (Q : α → Prop)
    (d : List (List Char × List α)) (k : List Char) (v : α)
    (hd : ∀ e ∈ d, P e.1 ∧ ∀ x ∈ e.2, Q x) (hk : P k) (hv : Q v) :
    ∀ e ∈ dictAppend d k v, P e.1 ∧ ∀ x ∈ e.2, Q x := by
  induction d with
  | nil =>
    intro e he
    simp only [dictAppend, List.mem_singleton] at he
    subst he
    exact ⟨hk, fun x hx => by
      rcases List.mem_singleton.mp hx with rfl
      exact hv⟩
  | cons e0 rest ih =>
    obtain ⟨k', vs⟩ := e0
    intro e he
    by_cases hkk : k' = k
    · subst hkk
      simp only [dictAppend, if_pos rfl] at he
      rcases List.mem_cons.mp he with h1 | h1
      · subst h1
        refine ⟨(hd (k', vs) (List.mem_cons_self _ _)).1, fun x hx => ?_⟩
        rcases List.mem_append.mp hx with h2 | h2
        · exact (hd (k', vs) (List.mem_cons_self _ _)).2 x h2
        · rcases List.mem_singleton.mp h2 with rfl
          exact hv
      · exact hd e (List.mem_cons.mpr (Or.inr h1))
    · simp only [dictAppend, if_neg hkk] at he
      rcases List.mem_cons.mp he with h1 | h1
      · subst h1
        exact hd (k', vs) (List.mem_cons_self _ _)
      · exact ih (fun e' he' => hd e' (List.mem_cons.mpr (Or.inr he'))) e h1

theorem buildDictFrom_entries {α : Type} (P : List Char → Prop) (Q : α → Prop)
    (ps : List (List Char × α)) :
    ∀ (d : List (List Char × List α)),
      (∀ p ∈ ps, P p.1 ∧ Q p.2) → (∀ e ∈ d, P e.1 ∧ ∀ x ∈ e.2, Q x) →
      ∀ e ∈ buildDictFrom d ps, P e.1 ∧ ∀ x ∈ e.2, Q x := by
  induction ps with
  | nil => intro d _ hd; exact hd
  | cons p ps ih =>
    intro d hps hd
    rw [show buildDictFrom d (p :: ps) =
      buildDictFrom (dictAppend d p.1 p.2) ps from rfl]
    exact ih _ (fun p' hp' => hps p' (List.mem_cons.mpr (Or.inr hp')))
      (dictAppend_entries P Q d p.1 p.2 hd
        (hps p (List.mem_cons_self _ _)).1 (hps p (List.mem_cons_self _ _)).2)

theorem parse_qs_entries {qs : List Char} (hU : NoUpper qs) (hP : '%' ∉ qs) :
    ∀ e ∈ parse_qs qs, NoUpper e.1 ∧ ∀ v ∈ e.2, NoUpper v := by
  have h := buildDictFrom_entries NoUpper NoUpper (parseQsl qs) []
    (parseQsl_entries hU hP) (by intro e he; cases he)
  intro e he
  exact h e he

theorem dictFind?_eq_some_mem {α : Type} {d : List (List Char × List α)}
    {g : List Char} {vs : List α} (h : dictFind? d g = some vs) :
    (g, vs) ∈ d := by
  induction d with
  | nil => cases h
  | cons e rest ih =>
    obtain ⟨k', vs'⟩ := e
    by_cases hk : k' = g
    · subst hk
      have h2 : some vs' = some vs := by
        rw [← h]
        simp [dictFind?]
      injection h2 with h2
      subst h2
      exact List.mem_cons_self _ _
    · simp only [dictFind?, if_neg hk] at h
      exact List.mem_cons.mpr (Or.inr (ih h))

theorem noUpper_headerName {L : List Char} (hU : NoUpper L) (hP : '%' ∉ L) :
    NoUpper (headerName L) := by
  unfold headerName
  cases hsf : splitFirst '?' L with
  | none => intro c hc; cases hc
  | some p =>
    obtain ⟨lang, opts⟩ := p
    by_cases hoe : opts = []
    · simp only [if_pos hoe]
      intro c hc
      cases hc
    · simp only [if_neg hoe]
      have hopts := (splitFirst_subset '?' L lang opts hsf).2
      have hUo : NoUpper opts := noUpper_of_subset hU hopts
      have hPo : '%' ∉ opts := not_percent_of_subset hP hopts
      cases hfind : dictFind? (parse_qs opts) ['e', 'x', 'a', 'm', 'p', 'l', 'e'] with
      | none => intro c hc; simp at hc
      | some vs =>
        have hmem := dictFind?_eq_some_mem hfind
        have hvs := (parse_qs_entries hUo hPo _ hmem).2
        cases vs with
        | nil => intro c hc; simp at hc
        | cons v vs' =>
          simpa using hvs v (List.mem_cons_self _ _)

theorem optionsNoUpper_headerOptions {L : List Char} (hU : NoUpper L)
    (hP : '%' ∉ L) : OptionsNoUpper (headerOptions L) := by
  unfold headerOptions
  cases hsf : splitFirst '?' L with
  | none => intro kv hkv; cases hkv
  | some p =>
    obtain ⟨lang, opts⟩ := p
    by_cases hoe : opts = []
    · simp only [if_pos hoe]
      intro kv hkv
      cases hkv
    · simp only [if_neg hoe]
      have hopts := (splitFirst_subset '?' L lang opts hsf).2
      have hUo : NoUpper opts := noUpper_of_subset hU hopts
      have hPo : '%' ∉ opts := not_percent_of_subset hP hopts
      intro kv hkv
      obtain ⟨e, he, rfl⟩ := List.mem_map.mp hkv
      obtain ⟨hk, hv⟩ := parse_qs_entries hUo hPo e he
      refine ⟨hk, fun v hvm => ?_⟩
      obtain ⟨v', hv', rfl⟩ := List.mem_map.mp hvm
      exact hv v' hv'

/-- C10 counterexample: a percent-escape in the (lowercased) header decodes
to an uppercase character: `py?example=%41` yields the option value `"A"`
and group name `"A"`, so option values are NOT always lowercase. -/
theorem lowercase_options_counterexample :
    getTopLevelBlockCodes [AstElt.blockCode (some "py?example=%41") "x"]
      "f.md" =
      [⟨"py", "x", [("example", ["A"])], "f.md"⟩] ∧
    ¬ OptionsNoUpper [("example", ["A"])] := by
  constructor
  · decide
  · intro h
    have h1 := (h ("example", ["A"]) (List.mem_cons_self _ _)).2 "A"
      (List.mem_cons_self _ _)
    have h2 := h1 'A' (by decide)
    simp at h2
    exact absurd h2 (by decide)

/-- C10 amended: the whole fence header is lowercased BEFORE splitting on
`?`, so (1) the group name, parsed options and language of a block depend
only on the lowercased header — two headers that differ only in letter case
produce the same group name, options and language, hence merge into the
same named group — and (2) whenever the header contains no percent-escape,
every option key and value (including the group name) is free of ASCII
uppercase letters; a `%XX` escape decoding to an uppercase letter is the
one exception (see the counterexample). -/
theorem lowercase_options_amended :
    (∀ info₁ info₂ : String, toLowerCh info₁.data = toLowerCh info₂.data →
      ∀ (loc t₁ t₂ : String),
        (mkBlock loc info₁ t₁).1 = (mkBlock loc info₂ t₂).1 ∧
        (mkBlock loc info₁ t₁).2.options = (mkBlock loc info₂ t₂).2.options ∧
        (mkBlock loc info₁ t₁).2.language =
          (mkBlock loc info₂ t₂).2.language) ∧
    (∀ info : String, '%' ∉ info.data → ∀ (loc t : String),
      NoUpper (mkBlock loc info t).1.data ∧
      OptionsNoUpper (mkBlock loc info t).2.options) := by
  constructor
  · intro info₁ info₂ h loc t₁ t₂
    rw [mkBlock_eq, mkBlock_eq, h]
    exact ⟨rfl, rfl, rfl⟩
  · intro info hP loc t
    rw [mkBlock_eq]
    have hU : NoUpper (toLowerCh info.data) := noUpper_toLowerCh _
    have hP' : '%' ∉ toLowerCh info.data := percent_not_mem_toLowerCh hP
    exact ⟨noUpper_headerName hU hP', optionsNoUpper_headerOptions hU hP'⟩

/-- Witness for C10 (amended): headers `py?example=A` and `PY?EXAMPLE=a`
produce the same group name and options, and the escape-free header
`python?skip=TRUE` yields only lowercase keys and values. -/
theorem lowercase_options_amended_witness :
    (toLowerCh ("py?example=A" : String).data =
      toLowerCh ("PY?EXAMPLE=a" : String).data ∧
    ((mkBlock "f" "py?example=A" "x").1 = (mkBlock "f" "PY?EXAMPLE=a" "y").1 ∧
      (mkBlock "f" "py?example=A" "x").2.options =
        (mkBlock "f" "PY?EXAMPLE=a" "y").2.options ∧
      (mkBlock "f" "py?example=A" "x").2.language =
        (mkBlock "f" "PY?EXAMPLE=a" "y").2.language)) ∧
    ('%' ∉ ("python?skip=TRUE" : String).data ∧
    (NoUpper (mkBlock "f" "python?skip=TRUE" "t").1.data ∧
      OptionsNoUpper (mkBlock "f" "python?skip=TRUE" "t").2.options)) :=
  ⟨⟨by decide, lowercase_options_amended.1 "py?example=A" "PY?EXAMPLE=a"
      (by decide) "f" "x" "y"⟩,
   ⟨by decide, lowercase_options_amended.2 "python?skip=TRUE" (by decide)
      "f" "t"⟩⟩

/-! ### Claim C7: supporting lemmas for idempotence -/

theorem mem_rstripCh_subset {l : List Char} {c : Char} (hc : c ∈ rstripCh l) :
    c ∈ l :=
  (rstripCh_pref l).subset hc

theorem mem_lstripCh_subset {l : List Char} {c : Char} (hc : c ∈ lstripCh l) :
    c ∈ l :=
  (List.dropWhile_sublist isPySpace).subset hc

theorem mem_stripCh_subset {l : List Char} {c : Char} (hc : c ∈ stripCh l) :
    c ∈ l :=
  mem_lstripCh_subset (mem_rstripCh_subset hc)

theorem clean_getLast {x : List Char} (h : rstripCh x = x) :
    ∀ c, x.getLast? = some c → isPySpace c = false :=
  fun c hc => rstripCh_getLast_not_space x c (by rw [h]; exact hc)

theorem rstripCh_append_eq_self {a b : List Char} (ha : rstripCh a = a)
    (hb : rstripCh b = b) : rstripCh (a ++ b) = a ++ b := by
  apply rstripCh_eq_self
  intro c hc
  by_cases hbe : b = []
  · subst hbe
    rw [List.append_nil] at hc
    exact clean_getLast ha c hc
  · rw [List.getLast?_append_of_ne_nil a hbe] at hc
    exact clean_getLast hb c hc

theorem strip_fixed_of_lower_fixed {q : List Char}
    (h : toLowerCh (stripCh q) = q) : stripCh q = q := by
  conv_lhs => rw [← h]
  rw [stripCh_toLowerCh, stripCh_idem, h]

theorem rstrip_fixed_of_lower_fixed {q : List Char}
    (h : toLowerCh (stripCh q) = q) : rstripCh q = q :=
  rstripCh_of_strip_fixed (strip_fixed_of_lower_fixed h)

theorem newline_not_mem_lower_strip {p : List Char} (h : '\n' ∉ p) :
    '\n' ∉ toLowerCh (stripCh p) :=
  not_mem_toLowerCh (by decide) (fun hm => h (mem_stripCh_subset hm))

theorem drop_three_marker_append (q : List Char) :
    (fenceMarker ++ q).drop 3 = q :=
  List.drop_left fenceMarker q

theorem rstripCh_marker_append {q : List Char} (hq : rstripCh q = q) :
    rstripCh (fenceMarker ++ q) = fenceMarker ++ q :=
  rstripCh_append_eq_self (by decide) hq

theorem stripCh_marker_append {q : List Char} (hq : rstripCh q = q) :
    stripCh (fenceMarker ++ q) = fenceMarker ++ q := by
  unfold stripCh
  rw [lstripCh_of_startsFence (startsFence_fenceMarker_append q),
    rstripCh_marker_append hq]

theorem fenceWrap_getLast (q body : List Char) :
    (fenceWrap q body).getLast? = some '`' := by
  unfold fenceWrap
  rw [List.getLast?_append_of_ne_nil _ (by simp)]
  decide

theorem fenceWrap_ne_nil (q body : List Char) : fenceWrap q body ≠ [] := by
  simp [fenceWrap]

theorem goodUnit_getLast {F : Formatters} {u : List Char} (h : GoodUnit F u) :
    ∀ c, u.getLast? = some c → isPySpace c = false := by
  rcases h with ⟨hclean, _, _⟩ | ⟨q, body, rfl, _, _, _, _⟩
  · exact clean_getLast hclean
  · intro c hc
    rw [fenceWrap_getLast] at hc
    injection hc with hc
    subst hc
    decide

theorem mem_dropTrailingEmpties {l : List (List Char)} {u : List Char}
    (hu : u ∈ dropTrailingEmpties l) : u ∈ l := by
  unfold dropTrailingEmpties at hu
  exact List.mem_reverse.mp
    ((List.dropWhile_sublist (fun x => x = [])).subset
      (List.mem_reverse.mp hu))

theorem dropTrailingEmpties_concat_empty (us : List (List Char)) :
    dropTrailingEmpties (us ++ [([] : List Char)]) =
      dropTrailingEmpties us := by
  unfold dropTrailingEmpties
  rw [List.reverse_append]
  simp [List.dropWhile_cons]

theorem dropTrailingEmpties_concat_ne (us : List (List Char))
    {u : List Char} (hu : u ≠ []) :
    dropTrailingEmpties (us ++ [u]) = us ++ [u] := by
  unfold dropTrailingEmpties
  rw [List.reverse_append]
  simp only [List.reverse_cons, List.reverse_nil, List.nil_append,
    List.singleton_append, List.dropWhile_cons]
  rw [if_neg (by simpa using hu)]
  simp

theorem rstrip_join_units (F : Formatters) :
    ∀ (units : List (List Char)), (∀ u ∈ units, GoodUnit F u) →
      rstripCh (joinLines units) = joinLines (dropTrailingEmpties units) := by
  intro units
  induction units using List.reverseRecOn with
  | nil => intro _; rfl
  | append_singleton us u ih =>
    intro h
    have hus : ∀ x ∈ us, GoodUnit F x :=
      fun x hx => h x (List.mem_append.mpr (Or.inl hx))
    by_cases hue : u = []
    · subst hue
      rw [dropTrailingEmpties_concat_empty, ← ih hus]
      by_cases huse : us = []
      · subst huse
        rfl
      · rw [joinLines_append us [[]] huse (by simp),
          show joinLines us ++ '\n' :: joinLines [([] : List Char)] =
            joinLines us ++ ['\n'] from rfl,
          rstripCh_append_space _ (by decide)]
    · rw [dropTrailingEmpties_concat_ne us hue]
      apply rstripCh_eq_self
      intro c hc
      by_cases huse : us = []
      · subst huse
        rw [List.nil_append] at hc
        exact goodUnit_getLast (h u (by simp)) c
          (by simpa [joinLines] using hc)
      · rw [joinLines_append us [u] huse (by simp),
          show joinLines us ++ '\n' :: joinLines [u] =
            joinLines us ++ ('\n' :: u) from rfl,
          List.getLast?_append_of_ne_nil _ (by simp),
          show ('\n' :: u) = ['\n'] ++ u from rfl,
          List.getLast?_append_of_ne_nil _ hue] at hc
        exact goodUnit_getLast (h u (by simp)) c hc

theorem format_strCh_congr_params (F : Formatters) (src p₁ p₂ : List Char)
    (h : toLowerCh (stripCh p₁) = toLowerCh (stripCh p₂)) :
    format_strCh F src p₁ = format_strCh F src p₂ := by
  unfold format_strCh
  rw [h]

theorem params_lower_fixed (p : List Char) :
    toLowerCh (stripCh (toLowerCh (stripCh p))) = toLowerCh (stripCh p) := by
  rw [stripCh_params, toLowerCh_params]

theorem format_ok_good (F : Formatters) (Hpy : PyIdempotent F)
    (Hr : RIdempotent F) (fenced : List (List Char)) (p blk : List Char)
    (hf : ∀ l ∈ fenced, rstripCh l = l ∧ startsFence l = false ∧ '\n' ∉ l)
    (hpnl : '\n' ∉ p)
    (h : format_strCh F (joinLines fenced) p = .ok blk) : GoodUnit F blk := by
  have hq := params_lower_fixed p
  have h2 : format_strCh F (joinLines fenced) (toLowerCh (stripCh p)) =
      .ok blk := by
    rw [format_strCh_congr_params F _ (toLowerCh (stripCh p)) p hq]
    exact h
  by_cases hpy2 : (toLowerCh (stripCh p)).take 2 = ['p', 'y']
  · rw [format_strCh_py F _ _ hq hpy2] at h2
    cases hok : F.pyFormat (joinLines fenced) with
    | error e =>
      rw [hok] at h2
      simp [Except.map] at h2
    | ok t =>
      rw [hok] at h2
      simp only [Except.map, Except.ok.injEq] at h2
      subst h2
      right
      obtain ⟨hcanon, hidem⟩ := Hpy _ _ hok
      refine ⟨toLowerCh (stripCh p), rstripCh t, rfl, hq,
        newline_not_mem_lower_strip hpnl, hcanon, ?_⟩
      rw [format_strCh_py F _ _ hq hpy2, hidem]
      simp [Except.map, rstripCh_idem]
  · by_cases hr2 : (toLowerCh (stripCh p)).take 1 = ['r']
    · rw [format_strCh_r F _ _ hq hpy2 hr2] at h2
      injection h2 with h2
      subst h2
      right
      obtain ⟨hcanon, hidem⟩ := Hr (joinLines fenced)
      refine ⟨toLowerCh (stripCh p), rstripCh (F.rFormat (joinLines fenced)),
        rfl, hq, newline_not_mem_lower_strip hpnl, hcanon, ?_⟩
      rw [format_strCh_r F _ _ hq hpy2 hr2, hidem]
    · rw [format_strCh_passthrough F _ _ hq hpy2 hr2] at h2
      injection h2 with h2
      subst h2
      right
      refine ⟨toLowerCh (stripCh p), joinLines fenced, rfl, hq,
        newline_not_mem_lower_strip hpnl, ?_,
        format_strCh_passthrough F _ _ hq hpy2 hr2⟩
      intro l hl
      by_cases hfe : fenced = []
      · subst hfe
        have hl2 : l = [] := by simpa [joinLines, splitOnChar] using hl
        subst hl2
        exact ⟨rfl, by decide⟩
      · rw [splitOnChar_joinLines hfe (fun x hx => (hf x hx).2.2)] at hl
        exact ⟨(hf l hl).1, (hf l hl).2.1⟩

theorem scan_units_good (F : Formatters) (Hpy : PyIdempotent F)
    (Hr : RIdempotent F) :
    ∀ (lines : List (List Char)) (st : ScanState) (out : List (List Char))
      (st' : ScanState),
      (∀ l ∈ lines, '\n' ∉ l) →
      (∀ l ∈ st.fencedLines, rstripCh l = l ∧ startsFence l = false ∧
        '\n' ∉ l) →
      (∀ x ∈ st.fenceParameters, '\n' ∉ x) →
      scanEmit F lines st = .ok (out, st') →
      ∀ u ∈ out, GoodUnit F u := by
  intro lines
  induction lines with
  | nil =>
    intro st out st' _ _ _ hscan u hu
    rw [scanEmit_nil] at hscan
    obtain ⟨h2, _⟩ : out = [] ∧ st = st' := by simpa using hscan
    subst h2
    cases hu
  | cons line rest ih =>
    intro st out st' hnl hfl hpl hscan
    obtain ⟨inF, p, fenced⟩ := st
    have hfl' : ∀ l ∈ fenced, rstripCh l = l ∧ startsFence l = false ∧
        '\n' ∉ l := hfl
    have hpl' : ∀ x ∈ p, '\n' ∉ x := hpl
    have hline_nl : '\n' ∉ line := hnl line (List.mem_cons_self _ _)
    have hrest_nl : ∀ l ∈ rest, '\n' ∉ l :=
      fun l hl => hnl l (List.mem_cons.mpr (Or.inr hl))
    by_cases hsf : startsFence (rstripCh line) = true
    · cases inF with
      | true =>
        rw [scanEmit_cons_close F line rest p fenced hsf] at hscan
        cases hfmt : format_strCh F (joinLines fenced) (p.getD []) with
        | error e =>
          rw [hfmt] at hscan
          cases hscan
        | ok blk =>
          rw [hfmt] at hscan
          have hscan2 : (scanEmit F rest ScanState.init).map
              (fun q => (blk :: q.1, q.2)) = .ok (out, st') := hscan
          cases hs2 : scanEmit F rest ScanState.init with
          | error e =>
            rw [hs2] at hscan2
            simp [Except.map] at hscan2
          | ok q2 =>
            rw [hs2] at hscan2
            simp only [Except.map, Except.ok.injEq, Prod.mk.injEq] at hscan2
            obtain ⟨ho, _⟩ := hscan2
            have hpnl : '\n' ∉ p.getD [] := by
              cases p with
              | none => simp
              | some pp => exact hpl' pp rfl
            intro u hu
            rw [← ho] at hu
            rcases List.mem_cons.mp hu with h1 | h1
            · subst h1
              exact format_ok_good F Hpy Hr fenced _ u hfl' hpnl hfmt
            · exact ih ScanState.init q2.1 q2.2 hrest_nl
                (fun l hl => absurd hl (by simp [ScanState.init]))
                (fun x hx => absurd hx (by simp [ScanState.init]))
                (by rw [hs2]) u h1
      | false =>
        rw [scanEmit_cons_open F line rest p fenced hsf] at hscan
        refine ih ⟨true, some ((stripCh (rstripCh line)).drop 3), fenced⟩
          out st' hrest_nl hfl' ?_ hscan
        intro x hx
        have hxeq : (stripCh (rstripCh line)).drop 3 = x := by
          simpa using hx
        rw [← hxeq]
        intro hm
        exact hline_nl
          (mem_rstripCh_subset (mem_stripCh_subset (List.drop_subset _ _ hm)))
    · have hsf' : startsFence (rstripCh line) = false := by simpa using hsf
      cases inF with
      | true =>
        rw [scanEmit_cons_acc F line rest p fenced hsf'] at hscan
        refine ih ⟨true, p, fenced ++ [rstripCh line]⟩ out st' hrest_nl
          ?_ hpl' hscan
        intro l hl
        rcases List.mem_append.mp hl with h1 | h1
        · exact hfl' l h1
        · rcases List.mem_singleton.mp h1 with rfl
          exact ⟨rstripCh_idem line, hsf',
            fun hm => hline_nl (mem_rstripCh_subset hm)⟩
      | false =>
        rw [scanEmit_cons_plain F line rest p fenced hsf'] at hscan
        cases hs2 : scanEmit F rest ⟨false, p, fenced⟩ with
        | error e =>
          rw [hs2] at hscan
          simp [Except.map] at hscan
        | ok q2 =>
          rw [hs2] at hscan
          simp only [Except.map, Except.ok.injEq, Prod.mk.injEq] at hscan
          obtain ⟨ho, _⟩ := hscan
          intro u hu
          rw [← ho] at hu
          rcases List.mem_cons.mp hu with h1 | h1
          · subst h1
            exact Or.inl ⟨rstripCh_idem line, hsf',
              fun hm => hline_nl (mem_rstripCh_subset hm)⟩
          · exact ih ⟨false, p, fenced⟩ q2.1 q2.2 hrest_nl hfl' hpl'
              (by rw [hs2]) u h1

theorem rescan_good_units (F : Formatters) :
    ∀ (units : List (List Char)), (∀ u ∈ units, GoodUnit F u) →
      scanEmit F (units.flatMap (splitOnChar '\n')) ScanState.init =
        .ok (units, ScanState.init) := by
  intro units
  induction units with
  | nil => intro _; rfl
  | cons u rest ih =>
    intro h
    have hrest : ∀ x ∈ rest, GoodUnit F x :=
      fun x hx => h x (List.mem_cons.mpr (Or.inr hx))
    rw [List.flatMap_cons]
    rcases h u (List.mem_cons_self u rest) with ⟨hclean, hnf, hnl⟩ |
      ⟨q, body, hu, hfix, hqnl, hcb, hfmt⟩
    · rw [splitOnChar_of_not_mem hnl,
        show ([u] ++ rest.flatMap (splitOnChar '\n')) =
          u :: rest.flatMap (splitOnChar '\n') from rfl,
        show (ScanState.init : ScanState) = ⟨false, none, []⟩ from rfl,
        scanEmit_cons_plain F u _ none [] (by rw [hclean]; exact hnf),
        show (⟨false, none, []⟩ : ScanState) = ScanState.init from rfl,
        ih hrest]
      simp [Except.map, hclean]
    · subst hu
      have hrq : rstripCh q = q := rstrip_fixed_of_lower_fixed hfix
      have hAnl : '\n' ∉ fenceMarker ++ q := by
        intro hm
        rcases List.mem_append.mp hm with h1 | h1
        · exact absurd h1 (by decide)
        · exact hqnl h1
      have hsplit : splitOnChar '\n' (fenceWrap q body) =
          ([fenceMarker ++ q] ++ splitOnChar '\n' body) ++ [fenceMarker] := by
        show splitOnChar '\n'
          (((fenceMarker ++ q) ++ '\n' :: body) ++ '\n' :: fenceMarker) = _
        rw [splitOnChar_append_cons '\n' ((fenceMarker ++ q) ++ '\n' :: body)
            fenceMarker,
          splitOnChar_append_cons '\n' (fenceMarker ++ q) body,
          splitOnChar_of_not_mem hAnl,
          show splitOnChar '\n' fenceMarker = [fenceMarker] from by decide]
      rw [hsplit,
        show (([fenceMarker ++ q] ++ splitOnChar '\n' body) ++ [fenceMarker])
            ++ rest.flatMap (splitOnChar '\n') =
          (fenceMarker ++ q) :: (splitOnChar '\n' body ++
            (fenceMarker :: rest.flatMap (splitOnChar '\n'))) from by simp,
        show (ScanState.init : ScanState) = ⟨false, none, []⟩ from rfl,
        scanEmit_cons_open F (fenceMarker ++ q) _ none []
          (by rw [rstripCh_marker_append hrq]
              exact startsFence_fenceMarker_append q),
        rstripCh_marker_append hrq, stripCh_marker_append hrq,
        drop_three_marker_append q,
        scanEmit_append,
        scanEmit_body F (splitOnChar '\n' body)
          (fun b hb => by rw [(hcb b hb).1]; exact (hcb b hb).2) (some q) [],
        show (List.map rstripCh (splitOnChar '\n' body)) =
          splitOnChar '\n' body from by
          rw [List.map_congr_left (fun b hb => (hcb b hb).1)]
          simp]
      have hstep : (Except.ok (([] : List (List Char)),
          (⟨true, some q, [] ++ splitOnChar '\n' body⟩ : ScanState)) :
            Except String (List (List Char) × ScanState)).bind
          (fun q' => (scanEmit F
            (fenceMarker :: rest.flatMap (splitOnChar '\n')) q'.2).map
              (fun r => (q'.1 ++ r.1, r.2))) =
          (scanEmit F (fenceMarker :: rest.flatMap (splitOnChar '\n'))
            ⟨true, some q, [] ++ splitOnChar '\n' body⟩).map
            (fun r => ([] ++ r.1, r.2)) := rfl
      rw [hstep,
        show (⟨true, some q, [] ++ splitOnChar '\n' body⟩ : ScanState) =
          ⟨true, some q, splitOnChar '\n' body⟩ from by simp,
        scanEmit_cons_close F fenceMarker _ (some q) _ (by decide),
        Option.getD_some, joinLines_splitOnChar body, hfmt, ih hrest]
      simp [Except.map]
      rfl

theorem fileLines_mk_concat (x : List Char) :
    fileLines (String.mk (x ++ ['\n'])) = splitOnChar '\n' x := by
  unfold fileLines
  rw [show (String.mk (x ++ ['\n'])).data = x ++ ['\n'] from rfl,
    splitOnChar_concat_sep]
  rw [if_pos (List.getLast?_concat _), List.dropLast_concat]

theorem mem_fileLines_subset {content : String} {l : List Char}
    (hl : l ∈ fileLines content) : l ∈ splitOnChar '\n' content.data := by
  simp only [fileLines] at hl
  split at hl
  · exact List.mem_of_mem_dropLast hl
  · exact hl

/-- C7: the format path is idempotent — whenever the per-language
formatters are themselves idempotent with canonical output (`PyIdempotent`,
`RIdempotent`), applying `format_file` to its own output reproduces that
output byte for byte. -/
theorem format_file_idempotent (F : Formatters) (Hpy : PyIdempotent F)
    (Hr : RIdempotent F) (content out : String)
    (h : format_file F content = .ok out) :
    format_file F out = .ok out := by
  unfold format_file at h
  cases hscan : scanEmit F (fileLines content) ScanState.init with
  | error e =>
    rw [hscan] at h
    simp [Except.map] at h
  | ok pr =>
    rw [hscan] at h
    simp only [Except.map, Except.ok.injEq] at h
    obtain ⟨units, stF⟩ := pr
    have hlnl : ∀ l ∈ fileLines content, '\n' ∉ l :=
      fun l hl => mem_splitOnChar_not_sep '\n' content.data l
        (mem_fileLines_subset hl)
    have hgood : ∀ u ∈ units, GoodUnit F u :=
      scan_units_good F Hpy Hr (fileLines content) ScanState.init units stF
        hlnl (fun l hl => absurd hl (by simp [ScanState.init]))
        (fun x hx => absurd hx (by simp [ScanState.init])) hscan
    have hTgood : ∀ u ∈ dropTrailingEmpties units, GoodUnit F u :=
      fun u hu => hgood u (mem_dropTrailingEmpties hu)
    have hJT : rstripCh (joinLines units) =
        joinLines (dropTrailingEmpties units) := rstrip_join_units F units hgood
    subst h
    unfold format_file
    rw [fileLines_mk_concat, hJT]
    cases hT : dropTrailingEmpties units with
    | nil =>
      rw [show joinLines ([] : List (List Char)) = [] from rfl,
        show splitOnChar '\n' ([] : List Char) = [[]] from rfl,
        show (ScanState.init : ScanState) = ⟨false, none, []⟩ from rfl,
        scanEmit_cons_plain F [] [] none [] (by decide), scanEmit_nil]
      simp [Except.map, joinLines, rstripCh]
    | cons u0 T' =>
      rw [hT] at hTgood hJT
      rw [splitOnChar_joinLines_flat _ (by simp),
        rescan_good_units F _ hTgood]
      simp only [Except.map]
      rw [show rstripCh (joinLines (u0 :: T')) = joinLines (u0 :: T') from by
          rw [← hJT, rstripCh_idem, hJT]]

/-- Witness for C7 with the constant canonical formatter on the file
`"a\n```py\nz=3\n```\nb"`. -/
theorem format_file_idempotent_witness :
    PyIdempotent Fconst ∧ RIdempotent Fconst ∧
    format_file Fconst "a\n```py\nz=3\n```\nb" =
      .ok "a\n```py\nx = 1\n```\nb\n" ∧
    format_file Fconst "a\n```py\nx = 1\n```\nb\n" =
      .ok "a\n```py\nx = 1\n```\nb\n" := by
  have hpy : PyIdempotent Fconst := by
    intro s t ht
    injection ht with ht
    subst ht
    exact ⟨by unfold CanonicalBody; decide, by decide⟩
  have hr : RIdempotent Fconst := by
    intro s
    refine ⟨?_, rfl⟩
    show CanonicalBody (rstripCh ("y <- 1".data))
    unfold CanonicalBody
    decide
  exact ⟨hpy, hr, by decide,
    format_file_idempotent Fconst hpy hr "a\n```py\nz=3\n```\nb"
      "a\n```py\nx = 1\n```\nb\n" (by decide)⟩

end Lost
